import Mathlib

/-!
Verification development for the automated internal linking engine of the
prSeoAstro repository.

The engine lives in src/utils/internalLinking (index.ts, htmlParser.ts,
targetResolver.ts, config.ts, synonymLoader.ts) together with the JSON
database access layer in src/utils/db.ts.  Every definition below is a
shallow embedding of the corresponding TypeScript function, translated
statement by statement.

Modelling conventions:
  - JavaScript strings are modelled as List Char (UTF-16 code units of the
    inputs in scope are plain characters, so a character list is faithful).
  - JavaScript numbers holding integer values are modelled as Int where
    negative values can occur (string offsets computed by the parser, config
    knobs) and as Nat where the source value is a length or count.
    Math.floor(a / b) on integers with b different from 0 is Int.fdiv.
    The float corner case b = 0 (Infinity / NaN) is outside the model and is
    noted where it matters.
  - Functions of the source that recurse on data of unbounded shape
    (descendant closure, ancestor walk, string scanning) are written with an
    explicit fuel argument large enough for every terminating source run;
    the JavaScript originals diverge or overflow the stack exactly where the
    fuel would run out (cyclic parent chains).
  - The module level JSON imports (categories, subcategories, anchors) are
    passed explicitly as a Database value and a SynonymsMap value.
  - JavaScript Set and Map are modelled by lists with membership testing and
    by update functions, which preserves observable behaviour because the
    source only uses has / add / get / set.
-/

/-! ## Basic string utilities (JavaScript semantics) -/

/-- Model of a JavaScript string: a list of characters. -/
abbrev Str := List Char

/-- Whitespace class of JavaScript regular expressions and String.trim,
restricted to the ASCII characters that can occur in the repository data:
space, tab, line feed, carriage return, vertical tab, form feed. -/
def jsSpace (c : Char) : Bool :=
  c = ' ' || c = '\t' || c = '\n' || c = '\r' || c = '\x0b' || c = '\x0c'

/-- Model of String.prototype.trim. -/
def jsTrim (s : Str) : Str :=
  ((s.dropWhile jsSpace).reverse.dropWhile jsSpace).reverse

/-- Model of String.prototype.toLowerCase on ASCII data. -/
def lowerStr (s : Str) : Str := s.map Char.toLower

/-- Word character class of JavaScript regular expressions: letters, digits
and the underscore. -/
def isWordChar (c : Char) : Bool := c.isAlpha || c.isDigit || c = '_'

/-- Model of Set.prototype.add followed by reading the set back in insertion
order: appends the element unless it is already present. -/
def jsSetAdd (l : List Str) (x : Str) : List Str :=
  if l.contains x then l else l ++ [x]

/-- Model of Array.from(new Set(l)): keeps the first occurrence of every
element, in insertion order. -/
def jsSetDedupGo (seen : List Str) : List Str → List Str
  | [] => []
  | x :: t => if seen.contains x then jsSetDedupGo seen t
              else x :: jsSetDedupGo (seen ++ [x]) t

/-- Deduplication in first occurrence order, as produced by
Array.from(new Set(l)). -/
def jsSetDedup (l : List Str) : List Str := jsSetDedupGo [] l

/-- Model of s.replace(new RegExp(c, g-flag), r) for a single literal
character c: every occurrence of c is replaced by r. -/
def replaceChar : Str → Char → Str → Str
  | [], _, _ => []
  | d :: t, c, r => (if d = c then r else [d]) ++ replaceChar t c r

/-- Model of the escapeHtml helper of htmlParser.ts: five successive global
replacements, applied in source order (ampersand first). -/
def escapeHtml (s : Str) : Str :=
  replaceChar
    (replaceChar
      (replaceChar
        (replaceChar
          (replaceChar s '&' ("&amp;".toList))
          '<' ("&lt;".toList))
        '>' ("&gt;".toList))
      '"' ("&quot;".toList))
    '\'' ("&#039;".toList)

/-- Model of String.prototype.slice with JavaScript index handling: negative
indices count from the end, indices are clamped to the string bounds, and an
empty string results when the start is not left of the end. -/
def jsSlice (s : Str) (a b : Int) : Str :=
  let len : Int := s.length
  let a' : Int := if a < 0 then max (len + a) 0 else min a len
  let b' : Int := if b < 0 then max (len + b) 0 else min b len
  if a' < b' then (s.drop a'.toNat).take (b' - a').toNat else []

/-- Model of String.prototype.substring with JavaScript index handling:
negative indices are clamped to 0, indices above the length are clamped to
the length, and the two indices are swapped when given in reverse order. -/
def jsSubstring (s : Str) (a b : Int) : Str :=
  let len : Int := s.length
  let a' : Int := min (max a 0) len
  let b' : Int := min (max b 0) len
  let lo : Int := min a' b'
  let hi : Int := max a' b'
  (s.drop lo.toNat).take (hi - lo).toNat

/-- Word splitting helper: accumulates the current word (reversed) and cuts
at every whitespace character. -/
def wordsAux : List Char → List Char → List Str
  | [], acc => if acc.isEmpty then [] else [acc.reverse]
  | c :: cs, acc =>
    if jsSpace c then
      (if acc.isEmpty then wordsAux cs [] else acc.reverse :: wordsAux cs [])
    else wordsAux cs (c :: acc)

/-- Model of countWords of htmlParser.ts:
text.trim().split(whitespace-run).filter(nonempty).length, which is the
number of maximal nonempty runs of non-whitespace characters. -/
def countWords (text : Str) : Nat := (wordsAux text []).length

/-- Helper for the tag stripping regular expression: splits a string at its
first greater-than sign, returning the part before and the part after it. -/
def splitAtFirstGt : List Char → Option (List Char × List Char)
  | [] => none
  | c :: t =>
    if c = '>' then some ([], t)
    else (splitAtFirstGt t).map (fun pr => (c :: pr.1, pr.2))

/-- Model of html.replace(tag-regexp-global, one-space) where the tag pattern
is a less-than sign, one or more characters other than greater-than, then a
greater-than sign.  Scans left to right; at a less-than sign whose first
following greater-than sign is not immediately adjacent, the whole tag is
replaced by a single space, otherwise the character is copied. -/
def stripTagsGo : List Char → Nat → List Char
  | _, 0 => []
  | [], _ => []
  | c :: t, fuel + 1 =>
    if c = '<' then
      match splitAtFirstGt t with
      | some (pre, post) =>
        if pre.isEmpty then c :: stripTagsGo t fuel
        else ' ' :: stripTagsGo post fuel
      | none => c :: stripTagsGo t fuel
    else c :: stripTagsGo t fuel

/-- Tag stripping with sufficient fuel for the whole input. -/
def stripTags (s : Str) : Str := stripTagsGo s (s.length + 1)

/-! ## Configuration (config.ts) -/

/-- Relation kinds of config.ts.  The source uses the string literal
relatedCategoryIds for the cross reference relation. -/
inductive RelationType
  | parent
  | child
  | ancestor
  | descendant
  | relatedCategoryIds
  | sibling
deriving DecidableEq, Repr

/-- Anchor source selector of the anchor policy. -/
inductive AnchorSource
  | title
  | synonyms
  | both
deriving DecidableEq, Repr

/-- Matching strategy of the anchor policy.  The source field is named
match, which is a reserved word here, so the field below is named
matchMode. -/
inductive MatchStrategy
  | wholeWord
  | phrase
deriving DecidableEq, Repr

/-- Relation policy block of InternalLinkingConfig. -/
structure RelationPolicy where
  excludeHierarchyByDefault : Bool
  includeRelations : List RelationType
  excludeRelations : List RelationType
deriving DecidableEq, Repr

/-- Anchor policy block of InternalLinkingConfig. -/
structure AnchorPolicy where
  source : AnchorSource
  synonymsFile : Option Str
  maxAnchorsPerTarget : Int
  matchMode : MatchStrategy
  caseSensitive : Bool
deriving DecidableEq, Repr

/-- Target policy block of InternalLinkingConfig. -/
structure TargetPolicy where
  preferSubcategoryOverCategory : Bool
  disallowTargets : List Str
deriving DecidableEq, Repr

/-- Placement policy block of InternalLinkingConfig. -/
structure PlacementPolicy where
  oneLinkPerParagraph : Bool
  skipFirstParagraph : Bool
  minParagraphWords : Int
deriving DecidableEq, Repr

/-- The full configuration record of config.ts.  linksPerWords is number or
null in the source, hence Option Int here. -/
structure InternalLinkingConfig where
  enabled : Bool
  maxLinksPerPage : Int
  linksPerWords : Option Int
  minWordsBeforeLinking : Int
  dedupeAnchors : Bool
  allowSelfLink : Bool
  relationPolicy : RelationPolicy
  anchorPolicy : AnchorPolicy
  targetPolicy : TargetPolicy
  placementPolicy : PlacementPolicy
deriving DecidableEq, Repr

/-- The defaultConfig value of config.ts, field for field. -/
def defaultConfig : InternalLinkingConfig where
  enabled := true
  maxLinksPerPage := 5
  linksPerWords := some 100
  minWordsBeforeLinking := 50
  dedupeAnchors := true
  allowSelfLink := false
  relationPolicy :=
    { excludeHierarchyByDefault := false
      includeRelations := []
      excludeRelations := [RelationType.parent, RelationType.ancestor] }
  anchorPolicy :=
    { source := AnchorSource.both
      synonymsFile := some ("src/data/anchors.json".toList)
      maxAnchorsPerTarget := 5
      matchMode := MatchStrategy.phrase
      caseSensitive := false }
  targetPolicy :=
    { preferSubcategoryOverCategory := true
      disallowTargets := [] }
  placementPolicy :=
    { oneLinkPerParagraph := false
      skipFirstParagraph := false
      minParagraphWords := 10 }

/-! ## HTML parser (htmlParser.ts) -/

/-- TextNode record of htmlParser.ts.  The two offsets are JavaScript
numbers; the parser can produce negative values (see the case mismatch
below), hence Int. -/
structure TextNode where
  text : Str
  startIndex : Int
  endIndex : Int
  paragraphIndex : Nat
deriving DecidableEq, Repr

/-- Paragraph record of htmlParser.ts.  The offsets of the paragraph itself
come from regular expression match indices and are never negative. -/
structure Paragraph where
  fullHtml : Str
  textNodes : List TextNode
  startIndex : Nat
  endIndex : Nat
  index : Nat
deriving DecidableEq, Repr

/-- The EXCLUDED_TAGS set of htmlParser.ts. -/
def EXCLUDED_TAGS : List Str :=
  [ "a".toList, "code".toList, "pre".toList, "kbd".toList, "samp".toList,
    "script".toList, "style".toList,
    "h1".toList, "h2".toList, "h3".toList, "h4".toList, "h5".toList,
    "h6".toList, "button".toList, "nav".toList, "header".toList,
    "footer".toList ]

/-- Membership in EXCLUDED_TAGS. -/
def isExcludedTag (g : Str) : Bool := EXCLUDED_TAGS.contains g

/-- Leftmost match of the tag pattern (less-than, one or more characters
other than greater-than, greater-than) inside a string, returned as the
decomposition text-before, tag, text-after. -/
def findFirstTag : List Char → Option (List Char × List Char × List Char)
  | [] => none
  | c :: t =>
    if c = '<' then
      match splitAtFirstGt t with
      | some (pre, post) =>
        if pre.isEmpty then
          (findFirstTag t).map (fun r => (c :: r.1, r.2.1, r.2.2))
        else some ([], c :: pre ++ ['>'], post)
      | none => none
    else (findFirstTag t).map (fun r => (c :: r.1, r.2.1, r.2.2))

/-- Model of content.split(capturing tag pattern): the resulting parts
alternate between text pieces (possibly empty) and tag matches, and
concatenate back to the input.  The fuel decreases at every emitted tag. -/
def splitTagsGo (s : Str) : Nat → List Str
  | 0 => [s]
  | fuel + 1 =>
    match findFirstTag s with
    | none => [s]
    | some (pre, tag, post) => pre :: tag :: splitTagsGo post fuel

/-- Tag splitting with sufficient fuel for the whole input. -/
def splitTags (s : Str) : List Str := splitTagsGo s (s.length + 1)

/-- Model of part.match(tag-name pattern): after the less-than sign an
optional slash, then one or more word characters.  Returns whether the part
begins with the closing slash and the tag name in lower case, or none when
the pattern does not match. -/
def parseTagName : Str → Option (Bool × Str)
  | [] => none
  | c :: t =>
    if c = '<' then
      match t with
      | '/' :: u =>
        let w := u.takeWhile isWordChar
        if w.isEmpty then none else some (true, lowerStr w)
      | _ =>
        let w := t.takeWhile isWordChar
        if w.isEmpty then none else some (false, lowerStr w)
    else none

/-- Whether a part ends with slash greater-than, the self closing test of
the source. -/
def endsSelfClose (part : Str) : Bool := part.reverse.take 2 = ['>', '/']

/-- Model of content.indexOf(pat, start): the least index at or after start
where pat occurs as a contiguous substring, none when there is none. -/
def strIndexOfGo (hay pat : Str) : Nat → Nat → Option Nat
  | _, 0 => none
  | i, fuel + 1 =>
    if i + pat.length ≤ hay.length ∧ (hay.drop i).take pat.length = pat then
      some i
    else if hay.length ≤ i then none
    else strIndexOfGo hay pat (i + 1) fuel

/-- Substring search with sufficient fuel. -/
def strIndexOf (hay pat : Str) (start : Nat) : Option Nat :=
  strIndexOfGo hay pat start (hay.length + 1 - start)

/-- Loop state of extractTextNodesFromParagraph: the text nodes accumulated
so far, the running position inside the content string, the stack of open
tags (most recent first; the source pushes at the array end and inspects the
last element), and the cached inside-excluded flag. -/
structure TNState where
  nodes : List TextNode
  currentPos : Nat
  tagStack : List Str
  insideExcluded : Bool

/-- One iteration of the for-loop of extractTextNodesFromParagraph over one
part, excluding the final advance of currentPos. -/
def tnStep (content : Str) (pStart : Nat) (openTagLen : Int) (pIdx : Nat)
    (part : Str) (st : TNState) : TNState :=
  if part.head? = some '<' then
    match parseTagName part with
    | none => st
    | some (closing, g) =>
      let stack' :=
        if closing then
          (if st.tagStack.head? = some g then st.tagStack.tail else st.tagStack)
        else
          (if endsSelfClose part then st.tagStack else g :: st.tagStack)
      { st with tagStack := stack', insideExcluded := stack'.any isExcludedTag }
  else if ¬part.isEmpty ∧ st.insideExcluded = false ∧ ¬(jsTrim part).isEmpty then
    match strIndexOf content part st.currentPos with
    | some idx =>
      { st with nodes := st.nodes ++
          [{ text := part
             startIndex := (pStart : Int) + openTagLen + idx
             endIndex := (pStart : Int) + openTagLen + idx + part.length
             paragraphIndex := pIdx }] }
    | none => st
  else st

/-- The full for-loop of extractTextNodesFromParagraph over the parts. -/
def tnLoop (content : Str) (pStart : Nat) (openTagLen : Int) (pIdx : Nat) :
    List Str → TNState → TNState
  | [], st => st
  | part :: rest, st =>
    let st' := tnStep content pStart openTagLen pIdx part st
    tnLoop content pStart openTagLen pIdx rest
      { st' with currentPos := st'.currentPos + part.length }

/-- First greater-than sign at or after a position. -/
def findGtFromGo (s : Str) : Nat → Nat → Option Nat
  | _, 0 => none
  | i, fuel + 1 =>
    if s.get? i = some '>' then some i
    else if s.length ≤ i then none
    else findGtFromGo s (i + 1) fuel

/-- First greater-than sign search with sufficient fuel. -/
def findGtFrom (s : Str) (i : Nat) : Option Nat :=
  findGtFromGo s i (s.length + 1)

/-- Match of the opening paragraph tag pattern at a position: less-than,
letter p (also upper case when ci is set), then either an immediate
greater-than sign, or one whitespace character followed by the run up to the
first following greater-than sign.  Returns the index just after the tag. -/
def matchOpenPTag (ci : Bool) (s : Str) (i : Nat) : Option Nat :=
  match s.get? i, s.get? (i + 1) with
  | some '<', some c =>
    if c = 'p' ∨ (ci ∧ c = 'P') then
      match s.get? (i + 2) with
      | some '>' => some (i + 3)
      | some c2 =>
        if jsSpace c2 then
          match findGtFrom s (i + 3) with
          | some j => some (j + 1)
          | none => none
        else none
      | none => none
    else none
  | _, _ => none

/-- First occurrence of the closing paragraph tag (case insensitive) at or
after a position. -/
def findClosePFromGo (s : Str) : Nat → Nat → Option Nat
  | _, 0 => none
  | i, fuel + 1 =>
    if s.get? i = some '<' ∧ s.get? (i + 1) = some '/' ∧
       (s.get? (i + 2) = some 'p' ∨ s.get? (i + 2) = some 'P') ∧
       s.get? (i + 3) = some '>' then some i
    else if s.length ≤ i then none
    else findClosePFromGo s (i + 1) fuel

/-- Closing paragraph tag search with sufficient fuel. -/
def findClosePFrom (s : Str) (i : Nat) : Option Nat :=
  findClosePFromGo s i (s.length + 1)

/-- Leftmost full match of the paragraph pattern starting at or after a
position: an opening paragraph tag followed (lazily) by the first closing
tag.  Returns the match start and the index just after the match.  When an
opening tag has no closing tag anywhere after it, no later start can
complete a match either, so the scan correctly stops. -/
def pScanFrom (html : Str) : Nat → Nat → Option (Nat × Nat)
  | _, 0 => none
  | i, fuel + 1 =>
    match matchOpenPTag true html i with
    | some oe =>
      match findClosePFrom html oe with
      | some j => some (i, j + 4)
      | none => none
    | none =>
      if html.length ≤ i then none
      else pScanFrom html (i + 1) fuel

/-- Model of the first replace of extractTextNodesFromParagraph: strip a
leading lower case opening paragraph tag when the anchored pattern matches
(the pattern there has no case insensitive flag, unlike extractParagraphs). -/
def stripOpenP (fullHtml : Str) : Str :=
  match matchOpenPTag false fullHtml 0 with
  | some oe => fullHtml.drop oe
  | none => fullHtml

/-- Model of the second replace: strip a trailing lower case closing
paragraph tag when present (again case sensitive). -/
def stripClosePEnd (s : Str) : Str :=
  if 4 ≤ s.length ∧ s.drop (s.length - 4) = "</p>".toList then
    s.take (s.length - 4)
  else s

/-- Model of extractTextNodesFromParagraph of htmlParser.ts.  The unused
excludedRegions computation of the source (dead code there) is omitted. -/
def extractTextNodesFromParagraph (paragraphHtml : Str)
    (paragraphStartIndex : Nat) (paragraphIndex : Nat) : List TextNode :=
  let content := stripClosePEnd (stripOpenP paragraphHtml)
  let openTagLength : Int :=
    (paragraphHtml.length : Int) - (content.length : Int) - 4
  let parts := splitTags content
  (tnLoop content paragraphStartIndex openTagLength paragraphIndex parts
    { nodes := [], currentPos := 0, tagStack := [], insideExcluded := false
    }).nodes

/-- The while-loop of extractParagraphs: repeated leftmost paragraph
matches, each search resuming where the previous match ended. -/
def epScan (html : Str) : Nat → Nat → Nat → List Paragraph
  | _, _, 0 => []
  | pos, pIdx, fuel + 1 =>
    match pScanFrom html pos (html.length + 1) with
    | none => []
    | some (i, e) =>
      let fullHtml := (html.drop i).take (e - i)
      { fullHtml := fullHtml
        textNodes := extractTextNodesFromParagraph fullHtml i pIdx
        startIndex := i
        endIndex := e
        index := pIdx } :: epScan html e (pIdx + 1) fuel

/-- Model of extractParagraphs of htmlParser.ts. -/
def extractParagraphs (html : Str) : List Paragraph :=
  epScan html 0 0 (html.length + 1)

/-- LinkInsertion record of htmlParser.ts.  position can be negative when it
is derived from a text node with a shifted offset, hence Int; length is the
length of the matched text. -/
structure LinkInsertion where
  position : Int
  length : Nat
  href : Str
  text : Str
deriving DecidableEq, Repr

/-- Stable insertion into a list sorted by descending position, placing the
new element after every earlier element whose position is not smaller, which
reproduces the stable JavaScript sort with comparator b.position minus
a.position. -/
def insertByPosDesc (x : LinkInsertion) : List LinkInsertion → List LinkInsertion
  | [] => [x]
  | y :: t => if x.position > y.position then x :: y :: t
              else y :: insertByPosDesc x t

/-- Stable sort by descending position. -/
def sortByPosDesc : List LinkInsertion → List LinkInsertion
  | [] => []
  | x :: t => insertByPosDesc x (sortByPosDesc t)

/-- Model of applyLinkInsertions of htmlParser.ts: sort by descending
position, then splice every insertion into the running string with
substring, wrapping the recorded text in an anchor tag with escaped href and
text. -/
def applyLinkInsertions (html : Str) (insertions : List LinkInsertion) : Str :=
  (sortByPosDesc insertions).foldl
    (fun result insertion =>
      let before := jsSubstring result 0 insertion.position
      let after := jsSubstring result (insertion.position + insertion.length)
        result.length
      let link := "<a href=\"".toList ++ escapeHtml insertion.href ++
        "\">".toList ++ escapeHtml insertion.text ++ "</a>".toList
      before ++ link ++ after)
    html

/-! ## Database layer (db.ts) -/

/-- Category record of db.ts (the fields the linking engine reads). -/
structure Category where
  id : Str
  slug : Str
  title : Str
  description : Str
  subcategoryIds : List Str
deriving DecidableEq, Repr

/-- Subcategory record of db.ts (the fields the linking engine reads). -/
structure Subcategory where
  id : Str
  slug : Str
  title : Str
  description : Str
  parentCategoryId : Str
  relatedCategoryIds : List Str
deriving DecidableEq, Repr

/-- The module level JSON imports of db.ts, passed explicitly. -/
structure Database where
  categories : List Category
  subcategories : List Subcategory
deriving DecidableEq, Repr

/-- DB.getCategoryById: first category with the given id. -/
def getCategoryById (db : Database) (i : Str) : Option Category :=
  db.categories.find? (fun c => c.id = i)

/-- DB.getSubcategoryById: first subcategory with the given id. -/
def getSubcategoryById (db : Database) (i : Str) : Option Subcategory :=
  db.subcategories.find? (fun s => s.id = i)

/-- DB.getChildSubcategories: subcategories whose parentCategoryId is the
id of the given subcategory. -/
def getChildSubcategories (db : Database) (s : Subcategory) : List Subcategory :=
  db.subcategories.filter (fun c => c.parentCategoryId = s.id)

/-- DB.getFullPath: the slug chain of a subcategory, walking parent links
upward; a parent that resolves as a subcategory continues the walk, a parent
that resolves only as a category ends it after contributing its slug.  The
fuel bounds the walk; the source diverges on cyclic parent chains. -/
def getFullPathGo (db : Database) : Subcategory → List Str → Nat → List Str
  | _, path, 0 => path
  | current, path, fuel + 1 =>
    if current.parentCategoryId.isEmpty then path
    else
      match getSubcategoryById db current.parentCategoryId with
      | some parent => getFullPathGo db parent (parent.slug :: path) fuel
      | none =>
        match getCategoryById db current.parentCategoryId with
        | some category => category.slug :: path
        | none => path

/-- Model of DB.getFullPath, joined with slashes. -/
def getFullPath (db : Database) (s : Subcategory) : Str :=
  let segs := getFullPathGo db s [s.slug] (db.subcategories.length + 1)
  (List.intersperse ("/".toList) segs).flatten

/-! ## Target resolver (targetResolver.ts) -/

/-- Entity union of targetResolver.ts. -/
inductive Entity
  | cat (c : Category)
  | sub (s : Subcategory)
deriving DecidableEq, Repr

/-- The id of an entity. -/
def Entity.eid : Entity → Str
  | .cat c => c.id
  | .sub s => s.id

/-- The title of an entity. -/
def Entity.etitle : Entity → Str
  | .cat c => c.title
  | .sub s => s.title

/-- PageContext of targetResolver.ts.  The type discriminator of the source
always agrees with the variant of the entity at every call site, so it is
derived from the entity here; a mismatched cast would crash the source. -/
structure PageContext where
  entity : Entity
  id : Str
  slug : Str
deriving DecidableEq, Repr

/-- Whether the context is a category page (the type field of the source). -/
def PageContext.isCategoryPage (ctx : PageContext) : Bool :=
  match ctx.entity with
  | .cat _ => true
  | .sub _ => false

/-- LinkTarget record of targetResolver.ts. -/
structure LinkTarget where
  id : Str
  url : Str
  title : Str
  anchors : List Str
  relation : RelationType
  priority : Int
deriving DecidableEq, Repr

/-- The anchors.json synonym table of synonymLoader.ts, passed explicitly. -/
abbrev SynonymsMap := List (Str × List Str)

/-- Model of getSynonymsForEntity of synonymLoader.ts: the stored list, or
an empty list when the entity has no entry. -/
def getSynonymsForEntity (syn : SynonymsMap) (entityId : Str) : List Str :=
  match syn.find? (fun e => e.1 = entityId) with
  | some e => e.2
  | none => []

/-- Model of getAllDescendants of targetResolver.ts: child ids (subcategory
ids of a category, or subcategories whose parent is the entity) together
with their recursive descendants.  The source recursion has no cycle guard;
the fuel bounds the depth, and one more than the number of subcategories is
enough for every acyclic store. -/
def getAllDescendantsGo (db : Database) : Str → Nat → List Str
  | _, 0 => []
  | entityId, fuel + 1 =>
    let childIds : Option (List Str) :=
      match getCategoryById db entityId with
      | some c => some c.subcategoryIds
      | none =>
        match getSubcategoryById db entityId with
        | some s => some ((getChildSubcategories db s).map (fun x => x.id))
        | none => none
    match childIds with
    | none => []
    | some ids =>
      ids.flatMap (fun childId =>
        childId :: getAllDescendantsGo db childId fuel)

/-- Descendant closure with the standard fuel. -/
def getAllDescendants (db : Database) (entityId : Str) : List Str :=
  getAllDescendantsGo db entityId (db.subcategories.length + 1)

/-- Model of getAllAncestors of targetResolver.ts: the walk starts at the
parent id of the subcategory, records every visited id, and continues only
while the current id resolves as a subcategory.  The fuel bounds the walk
against cyclic chains, on which the source loops forever. -/
def getAllAncestorsGo (db : Database) : Str → Nat → List Str
  | _, 0 => []
  | currentId, fuel + 1 =>
    if currentId.isEmpty then []
    else
      currentId ::
        (match getSubcategoryById db currentId with
         | some parent => getAllAncestorsGo db parent.parentCategoryId fuel
         | none => [])

/-- Ancestor walk with the standard fuel. -/
def getAllAncestors (db : Database) (s : Subcategory) : List Str :=
  getAllAncestorsGo db s.parentCategoryId (db.subcategories.length + 1)

/-- Sibling ids used by both getExcludedEntityIds and getRelation: the
subcategory ids listed by the parent when the parent is a category, or the
computed children of the parent when the parent is itself a subcategory. -/
def siblingIdsOfParent (db : Database) (parentId : Str) : Option (List Str) :=
  match getSubcategoryById db parentId with
  | some p => some ((getChildSubcategories db p).map (fun x => x.id))
  | none =>
    match getCategoryById db parentId with
    | some p => some p.subcategoryIds
    | none => none

/-- Model of getExcludedEntityIds of targetResolver.ts. -/
def getExcludedEntityIds (context : PageContext)
    (config : InternalLinkingConfig) (db : Database) : List Str :=
  let excluded : List Str :=
    if config.allowSelfLink = false then jsSetAdd [] context.id else []
  if config.relationPolicy.excludeHierarchyByDefault = false then excluded
  else
    match context.entity with
    | .cat category =>
      let e1 := category.subcategoryIds.foldl jsSetAdd excluded
      (getAllDescendants db category.id).foldl jsSetAdd e1
    | .sub subcategory =>
      let e1 := jsSetAdd excluded subcategory.parentCategoryId
      let e2 := ((getChildSubcategories db subcategory).map
        (fun c => c.id)).foldl jsSetAdd e1
      let e3 := (getAllDescendants db subcategory.id).foldl jsSetAdd e2
      let e4 := (getAllAncestors db subcategory).foldl jsSetAdd e3
      match siblingIdsOfParent db subcategory.parentCategoryId with
      | some siblingIds =>
        (siblingIds.filter (fun i => ¬(i = context.id))).foldl jsSetAdd e4
      | none => e4

/-- Model of getRelation of targetResolver.ts.  The source checks the
sibling lookup with the same parent resolution order (subcategory first) as
the exclusion code. -/
def getRelation (context : PageContext) (target : Entity) (db : Database) :
    RelationType :=
  match context.entity with
  | .cat category =>
    let isDirectChild : Bool :=
      match target with
      | .sub t => decide (t.parentCategoryId = category.id)
      | .cat _ => false
    if isDirectChild then RelationType.child
    else if (getAllDescendants db category.id).contains target.eid then
      RelationType.descendant
    else RelationType.relatedCategoryIds
  | .sub subcategory =>
    if target.eid = subcategory.parentCategoryId then RelationType.parent
    else if (getChildSubcategories db subcategory).any
        (fun child => child.id = target.eid) then RelationType.child
    else if (getAllAncestors db subcategory).contains target.eid then
      RelationType.ancestor
    else if (getAllDescendants db subcategory.id).contains target.eid then
      RelationType.descendant
    else if subcategory.relatedCategoryIds.contains target.eid then
      RelationType.relatedCategoryIds
    else
      match siblingIdsOfParent db subcategory.parentCategoryId with
      | some siblingIds =>
        if siblingIds.contains target.eid ∧ ¬(target.eid = context.id) then
          RelationType.sibling
        else RelationType.relatedCategoryIds
      | none => RelationType.relatedCategoryIds

/-- Model of isRelationAllowed of targetResolver.ts. -/
def isRelationAllowed (relation : RelationType)
    (config : InternalLinkingConfig) : Bool :=
  if config.relationPolicy.excludeRelations.contains relation then false
  else if 0 < config.relationPolicy.includeRelations.length then
    config.relationPolicy.includeRelations.contains relation
  else true

/-- Model of Array.prototype.slice(0, n) on lists: negative n counts from
the end, as in JavaScript. -/
def jsArraySlice0 {α : Type} (l : List α) (n : Int) : List α :=
  if n < 0 then l.take ((l.length : Int) + n).toNat else l.take n.toNat

/-- Truthiness of the optional synonymsFile string: present and nonempty. -/
def truthyStrOpt : Option Str → Bool
  | some s => ¬s.isEmpty
  | none => false

/-- Model of getAnchorsForEntity of targetResolver.ts: title according to
the source policy, then synonyms when enabled and a synonyms file is
configured, deduplicated in order and truncated to maxAnchorsPerTarget.
The try-catch of the source is dead because the loader cannot throw. -/
def getAnchorsForEntity (entity : Entity) (config : InternalLinkingConfig)
    (syn : SynonymsMap) : List Str :=
  let titleAnchors :=
    if config.anchorPolicy.source = AnchorSource.title ∨
       config.anchorPolicy.source = AnchorSource.both then [entity.etitle]
    else []
  let synonymAnchors :=
    if (config.anchorPolicy.source = AnchorSource.synonyms ∨
        config.anchorPolicy.source = AnchorSource.both) ∧
       truthyStrOpt config.anchorPolicy.synonymsFile = true then
      getSynonymsForEntity syn entity.eid
    else []
  let unique := jsSetDedup (titleAnchors ++ synonymAnchors)
  jsArraySlice0 unique config.anchorPolicy.maxAnchorsPerTarget

/-- Entity kind marker used by createLinkTarget and calculatePriority. -/
inductive EntityKind
  | category
  | subcategory
deriving DecidableEq, Repr

/-- Model of calculatePriority of targetResolver.ts. -/
def calculatePriority (relation : RelationType) (etype : EntityKind)
    (config : InternalLinkingConfig) : Int :=
  let base : Int :=
    if relation = RelationType.relatedCategoryIds then 100
    else if relation = RelationType.sibling then 50
    else 10
  if config.targetPolicy.preferSubcategoryOverCategory = true ∧
     etype = EntityKind.subcategory then base + 20
  else base

/-- Model of createLinkTarget of targetResolver.ts. -/
def createLinkTarget (entity : Entity) (etype : EntityKind)
    (relation : RelationType) (config : InternalLinkingConfig)
    (db : Database) (syn : SynonymsMap) : Option LinkTarget :=
  let url :=
    match etype, entity with
    | EntityKind.category, _ => "/".toList ++
        (match entity with
         | .cat c => c.slug
         | .sub s => s.slug) ++ "/".toList
    | EntityKind.subcategory, .sub s => "/".toList ++ getFullPath db s ++
        "/".toList
    | EntityKind.subcategory, .cat c => "/".toList ++ c.slug ++ "/".toList
  let anchors := getAnchorsForEntity entity config syn
  if anchors.isEmpty then none
  else some
    { id := entity.eid
      url := url
      title := entity.etitle
      anchors := anchors
      relation := relation
      priority := calculatePriority relation etype config }

/-- Stable insertion into a list sorted by descending priority. -/
def insertByPrioDesc (x : LinkTarget) : List LinkTarget → List LinkTarget
  | [] => [x]
  | y :: t => if x.priority > y.priority then x :: y :: t
              else y :: insertByPrioDesc x t

/-- Stable sort by descending priority, reproducing the stable JavaScript
sort with comparator b.priority minus a.priority. -/
def sortByPrioDesc : List LinkTarget → List LinkTarget
  | [] => []
  | x :: t => insertByPrioDesc x (sortByPrioDesc t)

/-- Model of getEligibleTargets of targetResolver.ts: all categories then
all subcategories, each filtered by the exclusion set, the deny list and the
relation policy, turned into link targets and sorted by priority. -/
def getEligibleTargets (context : PageContext)
    (config : InternalLinkingConfig) (db : Database) (syn : SynonymsMap) :
    List LinkTarget :=
  let excludedIds := getExcludedEntityIds context config db
  let catTargets := db.categories.filterMap (fun category =>
    if excludedIds.contains category.id then none
    else if config.targetPolicy.disallowTargets.contains category.id then none
    else
      let relation := getRelation context (Entity.cat category) db
      if isRelationAllowed relation config = false then none
      else createLinkTarget (Entity.cat category) EntityKind.category relation
        config db syn)
  let subTargets := db.subcategories.filterMap (fun subcategory =>
    if excludedIds.contains subcategory.id then none
    else if config.targetPolicy.disallowTargets.contains subcategory.id then
      none
    else
      let relation := getRelation context (Entity.sub subcategory) db
      if isRelationAllowed relation config = false then none
      else createLinkTarget (Entity.sub subcategory) EntityKind.subcategory
        relation config db syn)
  sortByPrioDesc (catTargets ++ subTargets)

/-! ## Link placement engine (index.ts) -/

/-- LinkingResult record of index.ts. -/
structure LinkingResult where
  html : Str
  linksInserted : Nat
  targetsUsed : List Str
deriving DecidableEq, Repr

/-- Character comparison under the case sensitivity flag: the case
insensitive regular expression flag folds both sides. -/
def charEqCI (cs : Bool) (c d : Char) : Bool :=
  if cs then c = d else c.toLower = d.toLower

/-- Whether the pattern occurs at the head of the text under the case
sensitivity flag; false when the text is shorter than the pattern. -/
def startsWithCI (cs : Bool) : Str → Str → Bool
  | _, [] => true
  | [], _ :: _ => false
  | c :: ct, d :: dt => charEqCI cs c d && startsWithCI cs ct dt

/-- Whether the character at an index is a word character; indices outside
the string count as non word. -/
def wordAt (t : Str) (k : Nat) : Bool :=
  match t.get? k with
  | some c => isWordChar c
  | none => false

/-- Word boundary of JavaScript regular expressions at a position: exactly
one of the neighbouring characters is a word character, with positions
outside the string counting as non word. -/
def boundaryAt (t : Str) (k : Nat) : Bool :=
  (match k with
   | 0 => false
   | j + 1 => wordAt t j) != wordAt t k

/-- Whole match of the anchor pattern of buildAnchorPattern at a position:
the escaped anchor is a literal, framed by two word boundary assertions.
Both matching strategies of the source build this same pattern. -/
def matchAt (cs : Bool) (t a : Str) (i : Nat) : Bool :=
  startsWithCI cs (t.drop i) a && boundaryAt t i && boundaryAt t (i + a.length)

/-- Leftmost pattern match scan, as performed by RegExp.prototype.exec with
lastIndex reset to zero. -/
def scanMatch (cs : Bool) (t a : Str) : Nat → Nat → Option Nat
  | _, 0 => none
  | i, fuel + 1 =>
    if matchAt cs t a i then some i else scanMatch cs t a (i + 1) fuel

/-- Index of the leftmost match of the anchor pattern in a text, with
sufficient fuel to scan every position including the end of the text. -/
def findMatchIdx (cs : Bool) (t a : Str) : Option Nat :=
  scanMatch cs t a 0 (t.length + 1)

/-- The inner text node loop of findFirstOccurrence: first text node with a
pattern match wins, and the insertion records the matched text (which can
differ from the anchor in letter case). -/
def scanNodes (cs : Bool) (anchor url : Str) : List TextNode → Option LinkInsertion
  | [] => none
  | n :: rest =>
    match findMatchIdx cs n.text anchor with
    | some i =>
      let matchText := (n.text.drop i).take anchor.length
      some { position := n.startIndex + i
             length := matchText.length
             href := url
             text := matchText }
    | none => scanNodes cs anchor url rest

/-- Model of findFirstOccurrence of index.ts.  The html parameter of the
source is not read there.  The map of links per paragraph is modelled as a
function from paragraph index to count, with default 0 as in the source
(get-or-zero). -/
def findFirstOccurrence (_html : Str) (paragraphs : List Paragraph)
    (anchor url : Str) (config : InternalLinkingConfig)
    (linksPerParagraph : Nat → Nat) : Option LinkInsertion :=
  match paragraphs with
  | [] => none
  | p :: rest =>
    if config.placementPolicy.oneLinkPerParagraph = true ∧
       1 ≤ linksPerParagraph p.index then
      findFirstOccurrence _html rest anchor url config linksPerParagraph
    else
      match scanNodes config.anchorPolicy.caseSensitive anchor url
        p.textNodes with
      | some insertion => some insertion
      | none => findFirstOccurrence _html rest anchor url config
          linksPerParagraph

/-- Loop state of findLinkInsertions: insertions found so far, the set of
used anchor keys, and the per paragraph link counts. -/
structure FLState where
  insertions : List LinkInsertion
  used : List Str
  linksPerParagraph : Nat → Nat

/-- The anchor key of the deduplication set: the anchor itself when matching
case sensitively, its lower case form otherwise. -/
def anchorKey (config : InternalLinkingConfig) (anchor : Str) : Str :=
  if config.anchorPolicy.caseSensitive then anchor else lowerStr anchor

/-- The inner anchor loop of findLinkInsertions for one target: stops at the
budget, skips used anchors under deduplication, and commits at most one
insertion (the source breaks after the first successful anchor).  After a
commit the paragraph counter keyed by the position of the owning paragraph
in the paragraphs array (Array.prototype.findIndex) is incremented, while
lookups elsewhere use the index field of the paragraph record. -/
def anchorLoop (html : Str) (paragraphs : List Paragraph)
    (config : InternalLinkingConfig) (maxLinks : Int) (url : Str) :
    List Str → FLState → FLState
  | [], st => st
  | anchor :: rest, st =>
    if maxLinks ≤ (st.insertions.length : Int) then st
    else
      let key := anchorKey config anchor
      if config.dedupeAnchors = true ∧ st.used.contains key then
        anchorLoop html paragraphs config maxLinks url rest st
      else
        match findFirstOccurrence html paragraphs anchor url config
          st.linksPerParagraph with
        | none => anchorLoop html paragraphs config maxLinks url rest st
        | some insertion =>
          let paraIndex? := paragraphs.findIdx? (fun p =>
            decide ((p.startIndex : Int) ≤ insertion.position) &&
            decide (insertion.position < (p.endIndex : Int)))
          let counts' :=
            match paraIndex? with
            | some k => fun j =>
                if j = k then st.linksPerParagraph j + 1
                else st.linksPerParagraph j
            | none => st.linksPerParagraph
          { insertions := st.insertions ++ [insertion]
            used := jsSetAdd st.used key
            linksPerParagraph := counts' }

/-- The outer target loop of findLinkInsertions: stops at the budget, and
for every target runs the anchor loop on its anchors. -/
def targetLoop (html : Str) (paragraphs : List Paragraph)
    (config : InternalLinkingConfig) (maxLinks : Int) :
    List LinkTarget → FLState → FLState
  | [], st => st
  | target :: rest, st =>
    if maxLinks ≤ (st.insertions.length : Int) then st
    else targetLoop html paragraphs config maxLinks rest
      (anchorLoop html paragraphs config maxLinks target.url target.anchors st)

/-- Stable insertion into a list of anchors sorted by descending length. -/
def insertByLenDesc (x : Str) : List Str → List Str
  | [] => [x]
  | y :: t => if x.length > y.length then x :: y :: t
              else y :: insertByLenDesc x t

/-- Stable sort of anchors by descending length, reproducing the stable
JavaScript sort with comparator b.length minus a.length. -/
def sortByLenDesc : List Str → List Str
  | [] => []
  | x :: t => insertByLenDesc x (sortByLenDesc t)

/-- Model of findLinkInsertions of index.ts: anchors of every target sorted
longest first, then the nested target and anchor loops. -/
def findLinkInsertions (html : Str) (paragraphs : List Paragraph)
    (targets : List LinkTarget) (maxLinks : Int)
    (config : InternalLinkingConfig) : List LinkInsertion :=
  let sortedTargets := targets.map (fun t =>
    { t with anchors := sortByLenDesc t.anchors })
  (targetLoop html paragraphs config maxLinks sortedTargets
    { insertions := [], used := [], linksPerParagraph := fun _ => 0
    }).insertions

/-- Model of calculateMaxLinks of index.ts: the page cap, tightened by the
word based cap when linksPerWords is not null, clamped at zero.  Math.floor
of the division is Int.fdiv for a nonzero divisor; a zero divisor produces
Infinity or NaN in the source floats and is outside this integer model. -/
def calculateMaxLinks (totalWords : Nat) (config : InternalLinkingConfig) :
    Int :=
  let m : Int :=
    match config.linksPerWords with
    | some d => min config.maxLinksPerPage (Int.fdiv totalWords d)
    | none => config.maxLinksPerPage
  max 0 m

/-- Model of filterParagraphs of index.ts: optionally drop the first
paragraph, then filter by the minimal word count of the paragraph html with
tags stripped. -/
def filterParagraphs (paragraphs : List Paragraph)
    (config : InternalLinkingConfig) : List Paragraph :=
  let filtered :=
    if config.placementPolicy.skipFirstParagraph = true ∧
       1 < paragraphs.length then paragraphs.drop 1
    else paragraphs
  if 0 < config.placementPolicy.minParagraphWords then
    filtered.filter (fun p =>
      config.placementPolicy.minParagraphWords ≤
        (countWords (stripTags p.fullHtml) : Int))
  else filtered

/-- Model of addInternalLinks of index.ts, the top level engine entry.  The
module scoped database and synonym table of the source are explicit
arguments. -/
def addInternalLinks (html : Str) (context : PageContext)
    (config : InternalLinkingConfig) (db : Database) (syn : SynonymsMap) :
    LinkingResult :=
  if config.enabled = false then
    { html := html, linksInserted := 0, targetsUsed := [] }
  else
    let plainText := stripTags html
    let totalWords := countWords plainText
    if (totalWords : Int) < config.minWordsBeforeLinking then
      { html := html, linksInserted := 0, targetsUsed := [] }
    else
      let maxLinks := calculateMaxLinks totalWords config
      let targets := getEligibleTargets context config db syn
      if targets.length = 0 then
        { html := html, linksInserted := 0, targetsUsed := [] }
      else
        let paragraphs := extractParagraphs html
        if paragraphs.length = 0 then
          { html := html, linksInserted := 0, targetsUsed := [] }
        else
          let eligibleParagraphs := filterParagraphs paragraphs config
          let insertions := findLinkInsertions html eligibleParagraphs
            targets maxLinks config
          let modifiedHtml := applyLinkInsertions html insertions
          { html := modifiedHtml
            linksInserted := insertions.length
            targetsUsed := jsSetDedup (insertions.map (fun i => i.href)) }

/-! ## Concrete instances used by counterexamples and witnesses -/

/-- Category record of the small concrete store. -/
def catC : Category :=
  { id := "cat".toList, slug := "cat".toList, title := "Cat Title".toList
    description := [], subcategoryIds := ["page".toList] }

/-- The nested page of the small concrete store. -/
def pageSub : Subcategory :=
  { id := "page".toList, slug := "page".toList, title := "Page Title".toList
    description := [], parentCategoryId := "cat".toList
    relatedCategoryIds := [] }

/-- A child of the nested page (parentCategoryId equals the page id). -/
def childSub : Subcategory :=
  { id := "child1".toList, slug := "child1".toList
    title := "Alpha Beta".toList, description := []
    parentCategoryId := "page".toList, relatedCategoryIds := [] }

/-- Small concrete store: one category, the page and its child. -/
def dbC : Database :=
  { categories := [catC], subcategories := [pageSub, childSub] }

/-- Page context for the nested page. -/
def ctxC : PageContext :=
  { entity := Entity.sub pageSub, id := "page".toList, slug := "page".toList }

/-- Long content (101 words after tag stripping) mentioning the title of the
child entity, so the default budget allows one link. -/
def htmlLong : Str :=
  ("<p>Alpha Beta is one of the many topics that we cover in this long guide and the words continue to flow so that the total number of words in this block finally rises above one hundred words which is the level needed for the budget to allow one link to be placed somewhere in the body of the page text. More filler words follow here so the counter keeps going up and up and up until the goal is reached for sure with room to spare in the end part of this very long single paragraph block of sample text today.</p>").toList

/-- Short content, below the default fifty word threshold. -/
def htmlShort : Str := ("<p>Tiny words only.</p>").toList

/-- Default configuration with a negative page budget. -/
def cfgNeg : InternalLinkingConfig := { defaultConfig with maxLinksPerPage := -3 }

/-- Target with the longer of two overlapping anchors. -/
def tOver1 : LinkTarget :=
  { id := "t1".toList, url := "/u1/".toList, title := "T1".toList
    anchors := ["project management".toList]
    relation := RelationType.relatedCategoryIds, priority := 100 }

/-- Target with the shorter of two overlapping anchors. -/
def tOver2 : LinkTarget :=
  { id := "t2".toList, url := "/u2/".toList, title := "T2".toList
    anchors := ["management tools".toList]
    relation := RelationType.relatedCategoryIds, priority := 100 }

/-- Content on which the two anchors overlap. -/
def htmlOver : Str :=
  ("<p>We suggest project management tools for the team.</p>").toList

/-- Configuration with the per paragraph cap and first paragraph skipping
enabled. -/
def cfgPara : InternalLinkingConfig :=
  { defaultConfig with placementPolicy :=
      { oneLinkPerParagraph := true, skipFirstParagraph := true
        minParagraphWords := 0 } }

/-- Target matching the first phrase of the second paragraph below. -/
def tPara1 : LinkTarget :=
  { id := "t1".toList, url := "/u1/".toList, title := "T1".toList
    anchors := ["alpha beta".toList]
    relation := RelationType.relatedCategoryIds, priority := 100 }

/-- Target matching the second phrase of the second paragraph below. -/
def tPara2 : LinkTarget :=
  { id := "t2".toList, url := "/u2/".toList, title := "T2".toList
    anchors := ["gamma delta".toList]
    relation := RelationType.relatedCategoryIds, priority := 100 }

/-- Two paragraphs; the first is skipped by cfgPara, shifting the filtered
array against the recorded paragraph indices. -/
def htmlPara : Str :=
  ("<p>Intro text.</p><p>Here alpha beta sits near gamma delta today.</p>").toList

/-- A paragraph nested inside a navigation element. -/
def htmlNav : Str := ("<nav><p>Some words here</p></nav>").toList

/-- A paragraph with upper case tag delimiters, matched case insensitively
by the paragraph scanner but not stripped by the case sensitive offset
computation. -/
def htmlUpper : Str := ("<P>Hello world</P>").toList

/-- Content containing the full phrase CRM for Startups. -/
def htmlCrm : Str := ("<p>Choose a CRM for Startups now.</p>").toList

/-! ## Reference counting of open and close tags

Independent specification side bookkeeping used to state the exclusion
guarantee of the segmenter: a part is an opening occurrence of tag g when
the tag name pattern parses it as a non closing, non self closing tag named
g, and a closing occurrence when it parses as a closing tag named g.  A
text token is inside an unclosed excluded element of its paragraph when
some excluded tag has more opening than closing occurrences before it. -/

/-- Whether a part is an opening (pushing) occurrence of tag g. -/
def isOpenOf (g part : Str) : Bool :=
  decide (parseTagName part = some (false, g) ∧ endsSelfClose part = false)

/-- Whether a part is a closing occurrence of tag g. -/
def isCloseOf (g part : Str) : Bool :=
  decide (parseTagName part = some (true, g))

/-- Opening occurrences of g minus closing occurrences of g in a prefix of
the part list. -/
def excessOpens (g : Str) (parts : List Str) : Int :=
  (parts.countP (isOpenOf g) : Int) - (parts.countP (isCloseOf g) : Int)

/-! ## Helper lemmas -/

/-- Case folding applied by the matcher: identity when case sensitive,
lower casing otherwise. -/
def caseFold (cs : Bool) (s : Str) : Str := if cs then s else lowerStr s

theorem startsWithCI_length (cs : Bool) :
    ∀ t a : Str, startsWithCI cs t a = true → a.length ≤ t.length := by
  intro t a
  induction a generalizing t with
  | nil => intro _; simp
  | cons d dt ih =>
    intro h
    cases t with
    | nil => simp [startsWithCI] at h
    | cons c ct =>
      simp only [startsWithCI, Bool.and_eq_true] at h
      have := ih ct h.2
      simpa using Nat.succ_le_succ this

theorem startsWithCI_fold (cs : Bool) :
    ∀ t a : Str, startsWithCI cs t a = true →
      caseFold cs (t.take a.length) = caseFold cs a := by
  intro t a
  induction a generalizing t with
  | nil => intro _; simp
  | cons d dt ih =>
    intro h
    cases t with
    | nil => simp [startsWithCI] at h
    | cons c ct =>
      simp only [startsWithCI, Bool.and_eq_true] at h
      have hd := h.1
      have htl := ih ct h.2
      cases cs with
      | false =>
        simp only [charEqCI, if_neg] at hd
        simp only [caseFold, lowerStr, if_neg, Bool.false_eq_true,
          not_false_eq_true, List.length_cons, List.take_succ_cons,
          List.map_cons, List.cons.injEq] at htl ⊢
        exact ⟨by simpa using hd, htl⟩
      | true =>
        simp only [charEqCI, if_pos] at hd
        simp only [caseFold, if_pos, List.length_cons,
          List.take_succ_cons, List.cons.injEq] at htl ⊢
        exact ⟨by simpa using hd, htl⟩

theorem scanMatch_matchAt (cs : Bool) (t a : Str) :
    ∀ fuel i j, scanMatch cs t a i fuel = some j → matchAt cs t a j = true := by
  intro fuel
  induction fuel with
  | zero => intro i j h; simp [scanMatch] at h
  | succ n ih =>
    intro i j h
    by_cases hm : matchAt cs t a i = true
    · simp only [scanMatch, if_pos hm, Option.some.injEq] at h
      exact h ▸ hm
    · simp only [scanMatch, if_neg hm] at h
      exact ih (i + 1) j h

theorem findMatchIdx_matchAt (cs : Bool) (t a : Str) (j : Nat)
    (h : findMatchIdx cs t a = some j) : matchAt cs t a j = true :=
  scanMatch_matchAt cs t a (t.length + 1) 0 j h

theorem scanNodes_spec (cs : Bool) (anchor url : Str) :
    ∀ nodes ins, scanNodes cs anchor url nodes = some ins →
      ins.href = url ∧ ins.length = anchor.length ∧
      caseFold cs ins.text = caseFold cs anchor := by
  intro nodes
  induction nodes with
  | nil => intro ins h; simp [scanNodes] at h
  | cons n rest ih =>
    intro ins h
    simp only [scanNodes] at h
    cases hidx : findMatchIdx cs n.text anchor with
    | none => rw [hidx] at h; exact ih ins h
    | some i =>
      rw [hidx] at h
      have hmatch := findMatchIdx_matchAt cs n.text anchor i hidx
      simp only [matchAt, Bool.and_eq_true] at hmatch
      have hpre := hmatch.1.1
      have hlen := startsWithCI_length cs (n.text.drop i) anchor hpre
      have hfold := startsWithCI_fold cs (n.text.drop i) anchor hpre
      simp only [Option.some.injEq] at h
      subst h
      refine ⟨rfl, ?_, ?_⟩
      · have hlen' : anchor.length ≤ n.text.length - i := by
          simpa [List.length_drop] using hlen
        simp only [List.length_take, List.length_drop]
        omega
      · exact hfold

theorem findFirstOccurrence_spec (html : Str) (anchor url : Str)
    (config : InternalLinkingConfig) (lpp : Nat → Nat) :
    ∀ paragraphs ins,
      findFirstOccurrence html paragraphs anchor url config lpp = some ins →
      ins.href = url ∧ ins.length = anchor.length ∧
      caseFold config.anchorPolicy.caseSensitive ins.text =
        caseFold config.anchorPolicy.caseSensitive anchor := by
  intro paragraphs
  induction paragraphs with
  | nil => intro ins h; simp [findFirstOccurrence] at h
  | cons p rest ih =>
    intro ins h
    simp only [findFirstOccurrence] at h
    split at h
    · exact ih ins h
    · cases hscan : scanNodes config.anchorPolicy.caseSensitive anchor url
        p.textNodes with
      | none => rw [hscan] at h; exact ih ins h
      | some i0 =>
        rw [hscan] at h
        simp only [Option.some.injEq] at h
        subst h
        exact scanNodes_spec config.anchorPolicy.caseSensitive anchor url
          p.textNodes i0 hscan

theorem anchorKey_eq_caseFold (config : InternalLinkingConfig) (s : Str) :
    anchorKey config s = caseFold config.anchorPolicy.caseSensitive s := rfl

theorem jsSetAdd_mem (l : List Str) (x y : Str) :
    y ∈ jsSetAdd l x ↔ y ∈ l ∨ y = x := by
  unfold jsSetAdd
  split
  · next hc =>
    constructor
    · intro h; exact Or.inl h
    · intro h
      rcases h with h | h
      · exact h
      · subst h
        simpa using hc
  · simp

theorem anchorLoop_spec (html : Str) (paragraphs : List Paragraph)
    (config : InternalLinkingConfig) (maxLinks : Int) (url : Str) :
    ∀ (anchors : List Str) (st : FLState),
      anchorLoop html paragraphs config maxLinks url anchors st = st ∨
      ((st.insertions.length : Int) < maxLinks ∧
       ∃ a ins,
         findFirstOccurrence html paragraphs a url config
           st.linksPerParagraph = some ins ∧
         (config.dedupeAnchors = true →
           st.used.contains (anchorKey config a) = false) ∧
         (anchorLoop html paragraphs config maxLinks url anchors
             st).insertions = st.insertions ++ [ins] ∧
         (anchorLoop html paragraphs config maxLinks url anchors st).used =
           jsSetAdd st.used (anchorKey config a)) := by
  intro anchors
  induction anchors with
  | nil => intro st; exact Or.inl rfl
  | cons a rest ih =>
    intro st
    by_cases hbreak : maxLinks ≤ (st.insertions.length : Int)
    · left
      simp [anchorLoop, if_pos hbreak]
    · have hlt : (st.insertions.length : Int) < maxLinks := by omega
      by_cases hdup : config.dedupeAnchors = true ∧
          st.used.contains (anchorKey config a) = true
      · have : anchorLoop html paragraphs config maxLinks url (a :: rest) st =
            anchorLoop html paragraphs config maxLinks url rest st := by
          simp only [anchorLoop, if_neg hbreak]
          rw [if_pos]
          exact ⟨hdup.1, by simpa using hdup.2⟩
        rw [this]
        exact ih st
      · cases hffo : findFirstOccurrence html paragraphs a url config
            st.linksPerParagraph with
        | none =>
          have : anchorLoop html paragraphs config maxLinks url (a :: rest)
              st = anchorLoop html paragraphs config maxLinks url rest st := by
            simp only [anchorLoop, if_neg hbreak]
            rw [if_neg, hffo]
            intro hcontra
            exact hdup ⟨hcontra.1, by simpa using hcontra.2⟩
          rw [this]
          exact ih st
        | some ins =>
          right
          refine ⟨hlt, a, ins, hffo, ?_, ?_, ?_⟩
          · intro hded
            by_cases hc : st.used.contains (anchorKey config a) = true
            · exact absurd ⟨hded, hc⟩ hdup
            · simpa using hc
          all_goals
            simp only [anchorLoop, if_neg hbreak]
            rw [if_neg, hffo]
            · intro hcontra
              exact hdup ⟨hcontra.1, by simpa using hcontra.2⟩

theorem anchorLoop_length (html : Str) (paragraphs : List Paragraph)
    (config : InternalLinkingConfig) (maxLinks : Int) (url : Str)
    (anchors : List Str) (st : FLState) :
    (anchorLoop html paragraphs config maxLinks url anchors st).insertions.length
      = st.insertions.length ∨
    ((st.insertions.length : Int) < maxLinks ∧
     (anchorLoop html paragraphs config maxLinks url anchors
        st).insertions.length = st.insertions.length + 1) := by
  rcases anchorLoop_spec html paragraphs config maxLinks url anchors st with
    h | ⟨hlt, _, _, _, _, hins, _⟩
  · left; rw [h]
  · right
    exact ⟨hlt, by simp [hins]⟩

theorem targetLoop_length_le_max (html : Str) (paragraphs : List Paragraph)
    (config : InternalLinkingConfig) (maxLinks : Int) :
    ∀ (targets : List LinkTarget) (st : FLState),
      ((targetLoop html paragraphs config maxLinks targets
          st).insertions.length : Int) ≤
        max (st.insertions.length : Int) maxLinks := by
  intro targets
  induction targets with
  | nil => intro st; simp [targetLoop]
  | cons t rest ih =>
    intro st
    by_cases hbreak : maxLinks ≤ (st.insertions.length : Int)
    · simp only [targetLoop, if_pos hbreak]
      exact le_max_left _ _
    · simp only [targetLoop, if_neg hbreak]
      have hstep := anchorLoop_length html paragraphs config maxLinks t.url
        t.anchors st
      have hlast := ih (anchorLoop html paragraphs config maxLinks t.url
        t.anchors st)
      rcases hstep with h | ⟨hlt, h⟩ <;> rw [h] at hlast <;> omega

theorem targetLoop_length_le_targets (html : Str)
    (paragraphs : List Paragraph) (config : InternalLinkingConfig)
    (maxLinks : Int) :
    ∀ (targets : List LinkTarget) (st : FLState),
      (targetLoop html paragraphs config maxLinks targets
          st).insertions.length ≤ st.insertions.length + targets.length := by
  intro targets
  induction targets with
  | nil => intro st; simp [targetLoop]
  | cons t rest ih =>
    intro st
    by_cases hbreak : maxLinks ≤ (st.insertions.length : Int)
    · simp only [targetLoop, if_pos hbreak, List.length_cons]
      omega
    · simp only [targetLoop, if_neg hbreak, List.length_cons]
      have hstep := anchorLoop_length html paragraphs config maxLinks t.url
        t.anchors st
      have hlast := ih (anchorLoop html paragraphs config maxLinks t.url
        t.anchors st)
      rcases hstep with h | ⟨_, h⟩ <;> rw [h] at hlast <;> omega

theorem findLinkInsertions_length_le (html : Str)
    (paragraphs : List Paragraph) (targets : List LinkTarget)
    (maxLinks : Int) (config : InternalLinkingConfig)
    (hmax : 0 ≤ maxLinks) :
    ((findLinkInsertions html paragraphs targets maxLinks
        config).length : Int) ≤ maxLinks := by
  unfold findLinkInsertions
  have := targetLoop_length_le_max html paragraphs config maxLinks
    (targets.map (fun t => { t with anchors := sortByLenDesc t.anchors }))
    { insertions := [], used := [], linksPerParagraph := fun _ => 0 }
  simp only [List.length_nil, Nat.cast_zero] at this
  dsimp only
  omega

theorem calculateMaxLinks_nonneg (totalWords : Nat)
    (config : InternalLinkingConfig) :
    0 ≤ calculateMaxLinks totalWords config := by
  unfold calculateMaxLinks
  exact le_max_left 0 _

/-- C1.  For every html input, page context, configuration and data store:
the computed link cap calculateMaxLinks is never negative; the number of
inserted links is bounded by that cap; under a well formed budget
configuration (a nonnegative page cap and a positive words divisor) the
number of inserted links is bounded by the claimed
min(maxLinksPerPage, floor(totalWords / linksPerWords)) where totalWords is
the word count of the html with all tags stripped; and when totalWords is
below minWordsBeforeLinking no link is inserted at all. -/
theorem claim_C1_budget (html : Str) (context : PageContext)
    (config : InternalLinkingConfig) (db : Database) (syn : SynonymsMap) :
    0 ≤ calculateMaxLinks (countWords (stripTags html)) config ∧
    (((addInternalLinks html context config db syn).linksInserted : Int) ≤
      calculateMaxLinks (countWords (stripTags html)) config) ∧
    (∀ d : Int, config.linksPerWords = some d → 0 ≤ config.maxLinksPerPage →
      0 < d →
      ((addInternalLinks html context config db syn).linksInserted : Int) ≤
        min config.maxLinksPerPage
          (Int.fdiv (countWords (stripTags html)) d)) ∧
    (((countWords (stripTags html)) : Int) < config.minWordsBeforeLinking →
      (addInternalLinks html context config db syn).linksInserted = 0) := by
  have hnn := calculateMaxLinks_nonneg (countWords (stripTags html)) config
  have hmain : (((addInternalLinks html context config db syn).linksInserted :
      Int) ≤ calculateMaxLinks (countWords (stripTags html)) config) ∧
      ((((countWords (stripTags html)) : Int) <
          config.minWordsBeforeLinking →
        (addInternalLinks html context config db syn).linksInserted = 0)) := by
    unfold addInternalLinks
    dsimp only
    split
    · exact ⟨by simpa using hnn, fun _ => rfl⟩
    · split
      · exact ⟨by simpa using hnn, fun _ => rfl⟩
      · next hwords =>
        constructor
        · split
          · simpa using hnn
          · split
            · simpa using hnn
            · simpa using findLinkInsertions_length_le html
                (filterParagraphs (extractParagraphs html) config)
                (getEligibleTargets context config db syn)
                (calculateMaxLinks (countWords (stripTags html)) config)
                config hnn
        · intro hlt
          exact absurd hlt hwords
  refine ⟨hnn, hmain.1, ?_, hmain.2⟩
  intro d hd hcap hdpos
  have hfdiv : 0 ≤ Int.fdiv (countWords (stripTags html)) d :=
    Int.fdiv_nonneg (by positivity) (le_of_lt hdpos)
  have hm : (0 : Int) ≤ min config.maxLinksPerPage
      (Int.fdiv (countWords (stripTags html)) d) := le_min hcap hfdiv
  have hcalc : calculateMaxLinks (countWords (stripTags html)) config =
      min config.maxLinksPerPage
        (Int.fdiv (countWords (stripTags html)) d) := by
    unfold calculateMaxLinks
    rw [hd]
    exact max_eq_right hm
  rw [hcalc] at hmain
  exact hmain.1

/-- C1 witness: concrete run on short content with the default
configuration, discharging every hypothesis of the budget theorem. -/
theorem claim_C1_budget_witness :
    (0 : Int) ≤ calculateMaxLinks (countWords (stripTags htmlShort))
      defaultConfig ∧
    (((addInternalLinks htmlShort ctxC defaultConfig dbC
        []).linksInserted : Int) ≤
      min defaultConfig.maxLinksPerPage
        (Int.fdiv (countWords (stripTags htmlShort)) 100)) ∧
    (addInternalLinks htmlShort ctxC defaultConfig dbC []).linksInserted
      = 0 :=
  ⟨(claim_C1_budget htmlShort ctxC defaultConfig dbC []).1,
   (claim_C1_budget htmlShort ctxC defaultConfig dbC []).2.2.1 100 rfl
     (by decide) (by decide),
   (claim_C1_budget htmlShort ctxC defaultConfig dbC []).2.2.2 (by decide)⟩

/-- C9.  The engine is deterministic: two invocations of addInternalLinks
on identical html, page context, configuration, entity store and synonym
table produce identical results (output html, linksInserted and targetsUsed
alike).  The source is a pure function of these inputs: it reads no clock,
no randomness and no mutable state, so its embedding is a function and
determinism holds definitionally. -/
theorem claim_C9_determinism (html : Str) (context : PageContext)
    (config : InternalLinkingConfig) (db : Database) (syn : SynonymsMap) :
    addInternalLinks html context config db syn =
      addInternalLinks html context config db syn := rfl

/-- C10.  Whenever addInternalLinks reports zero inserted links, the
returned html is the input html unchanged and the list of used targets is
empty, for every input and configuration. -/
theorem claim_C10_frame (html : Str) (context : PageContext)
    (config : InternalLinkingConfig) (db : Database) (syn : SynonymsMap)
    (h : (addInternalLinks html context config db syn).linksInserted = 0) :
    (addInternalLinks html context config db syn).html = html ∧
    (addInternalLinks html context config db syn).targetsUsed = [] := by
  revert h
  unfold addInternalLinks
  dsimp only
  split
  · intro _; exact ⟨rfl, rfl⟩
  · split
    · intro _; exact ⟨rfl, rfl⟩
    · split
      · intro _; exact ⟨rfl, rfl⟩
      · split
        · intro _; exact ⟨rfl, rfl⟩
        · intro h
          have hnil : findLinkInsertions html
              (filterParagraphs (extractParagraphs html) config)
              (getEligibleTargets context config db syn)
              (calculateMaxLinks (countWords (stripTags html)) config)
              config = [] := List.length_eq_zero.mp h
          constructor
          · show applyLinkInsertions html _ = html
            rw [hnil]
            rfl
          · show jsSetDedup (List.map _ _) = []
            rw [hnil]
            rfl

/-- C10 witness: on short content the engine reports zero links, and the
frame theorem applies. -/
theorem claim_C10_frame_witness :
    (addInternalLinks htmlShort ctxC defaultConfig dbC []).html =
      htmlShort ∧
    (addInternalLinks htmlShort ctxC defaultConfig dbC []).targetsUsed
      = [] :=
  claim_C10_frame htmlShort ctxC defaultConfig dbC [] (by decide)

theorem containsStr_iff (l : List Str) (x : Str) :
    l.contains x = true ↔ x ∈ l := by simp

/-- C2 counterexample.  On content containing the phrase
(project management tools), two targets whose anchors overlap in the text
commit the overlapping byte ranges [14, 32) and [22, 38): the second range
starts before the first one ends, refuting pairwise disjointness, and the
rewritten output contains a mangled anchor fragment with a second anchor
spliced into the first one, so the output does contain overlapping anchor
markup. -/
theorem claim_C2_counterexample :
    findLinkInsertions htmlOver (extractParagraphs htmlOver)
        [tOver1, tOver2] 5 defaultConfig =
      [ { position := 14, length := 18, href := "/u1/".toList,
          text := "project management".toList },
        { position := 22, length := 16, href := "/u2/".toList,
          text := "management tools".toList } ] ∧
    (22 : Int) < 14 + 18 ∧
    applyLinkInsertions htmlOver (findLinkInsertions htmlOver
        (extractParagraphs htmlOver) [tOver1, tOver2] 5 defaultConfig) =
      ("<p>We suggest <a href=\"/u1/\">project management</a>u2/\">management tools</a> for the team.</p>").toList := by
  decide

theorem targetLoop_nodup (html : Str) (paragraphs : List Paragraph)
    (config : InternalLinkingConfig) (maxLinks : Int)
    (hd : config.dedupeAnchors = true) :
    ∀ (targets : List LinkTarget) (st : FLState),
      ((st.insertions.map (fun i => anchorKey config i.text)).Nodup ∧
       ∀ i ∈ st.insertions,
         st.used.contains (anchorKey config i.text) = true) →
      ((targetLoop html paragraphs config maxLinks targets
          st).insertions.map (fun i => anchorKey config i.text)).Nodup ∧
      ∀ i ∈ (targetLoop html paragraphs config maxLinks targets
          st).insertions,
        (targetLoop html paragraphs config maxLinks targets
            st).used.contains (anchorKey config i.text) = true := by
  intro targets
  induction targets with
  | nil => intro st hinv; exact hinv
  | cons t rest ih =>
    intro st hinv
    by_cases hbreak : maxLinks ≤ (st.insertions.length : Int)
    · simpa only [targetLoop, if_pos hbreak] using hinv
    · simp only [targetLoop, if_neg hbreak]
      apply ih
      rcases anchorLoop_spec html paragraphs config maxLinks t.url t.anchors
        st with h | ⟨_, a, ins, hffo, hfresh, hins, hused⟩
      · rw [h]; exact hinv
      · have hkey : anchorKey config ins.text = anchorKey config a := by
          rw [anchorKey_eq_caseFold, anchorKey_eq_caseFold]
          exact (findFirstOccurrence_spec html a t.url config
            st.linksPerParagraph paragraphs ins hffo).2.2
        have hnotin : anchorKey config a ∉
            st.insertions.map (fun i => anchorKey config i.text) := by
          intro hmem
          rcases List.mem_map.mp hmem with ⟨i, hi, hkeyi⟩
          have := hinv.2 i hi
          rw [hkeyi] at this
          rw [hfresh hd] at this
          exact Bool.false_ne_true this
        constructor
        · rw [hins]
          simp only [List.map_append, List.map_cons, List.map_nil]
          rw [List.nodup_append]
          refine ⟨hinv.1, List.nodup_singleton _, ?_⟩
          intro x hx hx1
          simp only [List.mem_singleton] at hx1
          subst hx1
          rw [hkey] at hx
          exact hnotin hx
        · intro i hi
          rw [hins] at hi
          rw [hused]
          rcases List.mem_append.mp hi with hold | hnew
          · have := hinv.2 i hold
            rw [containsStr_iff] at this ⊢
            exact (jsSetAdd_mem st.used (anchorKey config a) _).mpr
              (Or.inl this)
          · simp only [List.mem_singleton] at hnew
            subst hnew
            rw [containsStr_iff, hkey]
            exact (jsSetAdd_mem st.used (anchorKey config a) _).mpr
              (Or.inr rfl)

/-- C2 amended.  The committed byte ranges are not guaranteed pairwise
disjoint (see the counterexample): the placement engine has no per position
claim discipline across targets, so anchors of different targets that
overlap in the text produce overlapping insertions and mangled anchor
markup.  What the loop does guarantee is per anchor deduplication and a per
target limit: with dedupeAnchors enabled no two committed insertions carry
the same case folded anchor text, and at most one insertion is committed
per target. -/
theorem claim_C2_amended (html : Str) (paragraphs : List Paragraph)
    (targets : List LinkTarget) (maxLinks : Int)
    (config : InternalLinkingConfig) (hd : config.dedupeAnchors = true) :
    ((findLinkInsertions html paragraphs targets maxLinks config).map
      (fun i => anchorKey config i.text)).Nodup ∧
    (findLinkInsertions html paragraphs targets maxLinks config).length ≤
      targets.length := by
  constructor
  · unfold findLinkInsertions
    dsimp only
    exact (targetLoop_nodup html paragraphs config maxLinks hd
      (targets.map (fun t => { t with anchors := sortByLenDesc t.anchors }))
      { insertions := [], used := [], linksPerParagraph := fun _ => 0 }
      (by simp)).1
  · unfold findLinkInsertions
    dsimp only
    have := targetLoop_length_le_targets html paragraphs config maxLinks
      (targets.map (fun t => { t with anchors := sortByLenDesc t.anchors }))
      { insertions := [], used := [], linksPerParagraph := fun _ => 0 }
    simpa using this

/-- C2 witness: the amended guarantees evaluated on the concrete
overlapping scenario. -/
theorem claim_C2_amended_witness :
    ((findLinkInsertions htmlOver (extractParagraphs htmlOver)
        [tOver1, tOver2] 5 defaultConfig).map
      (fun i => anchorKey defaultConfig i.text)).Nodup ∧
    (findLinkInsertions htmlOver (extractParagraphs htmlOver)
        [tOver1, tOver2] 5 defaultConfig).length ≤
      ([tOver1, tOver2] : List LinkTarget).length :=
  claim_C2_amended htmlOver (extractParagraphs htmlOver) [tOver1, tOver2] 5
    defaultConfig rfl

set_option maxRecDepth 100000

/-- C8 counterexample.  A configuration error (maxLinksPerPage set to a
negative value) is not escalated to the caller as a failure: the engine has
no validation step and no failure channel, the negative cap is silently
clamped to zero by calculateMaxLinks, and the very same call that inserts a
link under the default configuration completes normally with zero links
under the negative configuration. -/
theorem claim_C8_counterexample :
    addInternalLinks htmlLong ctxC cfgNeg dbC [] =
      { html := htmlLong, linksInserted := 0, targetsUsed := [] } ∧
    calculateMaxLinks (countWords (stripTags htmlLong)) cfgNeg = 0 ∧
    (addInternalLinks htmlLong ctxC defaultConfig dbC []).linksInserted
      = 1 := by
  decide

/-- C8 amended.  Configuration errors are not escalated as hard failures:
a negative budget setting is silently clamped, the computed cap is never
negative, and the engine returns a normal zero link result.  The graceful
degradation half of the claim does hold: an entity whose anchor list is
empty (for example because its synonym entry is missing and the title
source is disabled) is merely dropped as a link target, and the synonym
lookup itself never fails, returning an empty list for a missing entry. -/
theorem claim_C8_amended (totalWords : Nat)
    (config : InternalLinkingConfig) (entity : Entity) (etype : EntityKind)
    (relation : RelationType) (db : Database) (syn : SynonymsMap)
    (entityId : Str) :
    (config.maxLinksPerPage < 0 → calculateMaxLinks totalWords config = 0) ∧
    0 ≤ calculateMaxLinks totalWords config ∧
    (getAnchorsForEntity entity config syn = [] →
      createLinkTarget entity etype relation config db syn = none) ∧
    (syn.find? (fun e => e.1 = entityId) = none →
      getSynonymsForEntity syn entityId = []) := by
  refine ⟨?_, calculateMaxLinks_nonneg totalWords config, ?_, ?_⟩
  · intro hneg
    unfold calculateMaxLinks
    cases hlw : config.linksPerWords with
    | none =>
      dsimp only
      omega
    | some d =>
      dsimp only
      have : min config.maxLinksPerPage (Int.fdiv totalWords d) ≤
          config.maxLinksPerPage := min_le_left _ _
      omega
  · intro hanch
    unfold createLinkTarget
    rw [hanch]
    rfl
  · intro hfind
    unfold getSynonymsForEntity
    rw [hfind]

/-- C8 witness: the amended statement evaluated on the concrete negative
configuration and on an entity with no anchors. -/
theorem claim_C8_amended_witness :
    calculateMaxLinks 101 cfgNeg = 0 ∧
    createLinkTarget (Entity.sub childSub) EntityKind.subcategory
      RelationType.child
      { defaultConfig with anchorPolicy :=
          { defaultConfig.anchorPolicy with source := AnchorSource.synonyms } }
      dbC [] = none ∧
    getSynonymsForEntity [] ("page".toList) = [] :=
  ⟨(claim_C8_amended 101 cfgNeg (Entity.sub childSub)
      EntityKind.subcategory RelationType.child dbC [] []).1 (by decide),
   (claim_C8_amended 101
      { defaultConfig with anchorPolicy :=
          { defaultConfig.anchorPolicy with source := AnchorSource.synonyms } }
      (Entity.sub childSub) EntityKind.subcategory RelationType.child dbC []
      []).2.2.1 (by decide),
   (claim_C8_amended 101 cfgNeg (Entity.sub childSub)
      EntityKind.subcategory RelationType.child dbC []
      ("page".toList)).2.2.2 rfl⟩

theorem insertByPrioDesc_mem (x y : LinkTarget) :
    ∀ l, y ∈ insertByPrioDesc x l → y = x ∨ y ∈ l := by
  intro l
  induction l with
  | nil => intro h; simpa [insertByPrioDesc] using h
  | cons z t ih =>
    intro h
    by_cases hc : x.priority > z.priority
    · simp only [insertByPrioDesc, if_pos hc] at h
      rcases List.mem_cons.mp h with h1 | h1
      · exact Or.inl h1
      · exact Or.inr h1
    · simp only [insertByPrioDesc, if_neg hc] at h
      rcases List.mem_cons.mp h with h1 | h1
      · exact Or.inr (by simp [h1])
      · rcases ih h1 with h2 | h2
        · exact Or.inl h2
        · exact Or.inr (List.mem_cons_of_mem z h2)

theorem sortByPrioDesc_mem (l : List LinkTarget) (y : LinkTarget)
    (h : y ∈ sortByPrioDesc l) : y ∈ l := by
  induction l generalizing y with
  | nil => simp [sortByPrioDesc] at h
  | cons x t ih =>
    unfold sortByPrioDesc at h
    rcases insertByPrioDesc_mem x y (sortByPrioDesc t) h with h1 | h1
    · simp [h1]
    · exact List.mem_cons_of_mem x (ih y h1)

theorem createLinkTarget_id (entity : Entity) (etype : EntityKind)
    (relation : RelationType) (config : InternalLinkingConfig)
    (db : Database) (syn : SynonymsMap) (t : LinkTarget)
    (h : createLinkTarget entity etype relation config db syn = some t) :
    t.id = entity.eid := by
  unfold createLinkTarget at h
  dsimp only at h
  split at h
  · simp at h
  · simp only [Option.some.injEq] at h
    rw [← h]

theorem isRelationAllowed_default_true (relation : RelationType)
    (h : isRelationAllowed relation defaultConfig = true) :
    relation ≠ RelationType.parent ∧ relation ≠ RelationType.ancestor := by
  revert h
  cases relation <;> decide

theorem getRelation_sub_safe (db : Database) (s : Subcategory)
    (target : Entity)
    (hacyc : ∀ c ∈ db.subcategories, c.parentCategoryId = s.id →
      (getAllAncestors db s).contains c.id = false)
    (hallowed : isRelationAllowed
      (getRelation { entity := Entity.sub s, id := s.id, slug := s.slug }
        target db) defaultConfig = true) :
    target.eid ≠ s.parentCategoryId ∧
    (getAllAncestors db s).contains target.eid = false := by
  have hnp := isRelationAllowed_default_true _ hallowed
  constructor
  · intro heq
    have hrel : getRelation
        { entity := Entity.sub s, id := s.id, slug := s.slug } target db =
        RelationType.parent := by
      simp [getRelation, heq]
    rw [hrel] at hnp
    exact hnp.1 rfl
  · by_cases hanc : (getAllAncestors db s).contains target.eid = true
    · exfalso
      by_cases hpar : target.eid = s.parentCategoryId
      · have hrel : getRelation
            { entity := Entity.sub s, id := s.id, slug := s.slug } target
            db = RelationType.parent := by
          simp [getRelation, hpar]
        rw [hrel] at hnp
        exact hnp.1 rfl
      · by_cases hchild : (getChildSubcategories db s).any
            (fun child => child.id = target.eid) = true
        · rcases List.any_eq_true.mp hchild with ⟨c, hc, hceq⟩
          have hcs := List.mem_filter.mp hc
          have hfal := hacyc c hcs.1 (by simpa using hcs.2)
          have hcid : c.id = target.eid := by simpa using hceq
          rw [hcid, hanc] at hfal
          simp at hfal
        · have hrel : getRelation
              { entity := Entity.sub s, id := s.id, slug := s.slug } target
              db = RelationType.ancestor := by
            simp [getRelation, hpar, hchild, (containsStr_iff _ _).mp hanc]
          rw [hrel] at hnp
          exact hnp.2 rfl
    · simpa using hanc

/-- C3 counterexample.  Under the default configuration
(excludeHierarchyByDefault false, excludeRelations parent and ancestor
only), a computed child of the nested page is an eligible target, and on
long enough content the engine inserts a link whose target is that child:
the inserted link targets a computed child id, refuting the claim.  The
first conjunct certifies that the linked entity is a child (its
parentCategoryId equals the page id). -/
theorem claim_C3_counterexample :
    childSub.parentCategoryId = ctxC.id ∧
    (getEligibleTargets ctxC defaultConfig dbC []).map (fun t => t.id) =
      [childSub.id] ∧
    (addInternalLinks htmlLong ctxC defaultConfig dbC []).targetsUsed =
      ["/cat/page/child1/".toList] := by
  decide


theorem target_safe_of_created (db : Database) (s : Subcategory)
    (syn : SynonymsMap)
    (hacyc : ∀ c ∈ db.subcategories, c.parentCategoryId = s.id →
      (getAllAncestors db s).contains c.id = false)
    (ent : Entity) (etype : EntityKind) (t : LinkTarget)
    (hex : ¬(([s.id] : List Str).contains ent.eid = true))
    (hrel : ¬(isRelationAllowed (getRelation
      { entity := Entity.sub s, id := s.id, slug := s.slug } ent db)
      defaultConfig = false))
    (hf : createLinkTarget ent etype (getRelation
      { entity := Entity.sub s, id := s.id, slug := s.slug } ent db)
      defaultConfig db syn = some t) :
    t.id ≠ s.id ∧ t.id ≠ s.parentCategoryId ∧
    (getAllAncestors db s).contains t.id = false := by
  have hallowed : isRelationAllowed (getRelation
      { entity := Entity.sub s, id := s.id, slug := s.slug } ent db)
      defaultConfig = true := by
    revert hrel
    cases isRelationAllowed (getRelation
      { entity := Entity.sub s, id := s.id, slug := s.slug } ent db)
      defaultConfig <;> simp
  have hid := createLinkTarget_id _ _ _ _ _ _ t hf
  have hsafe := getRelation_sub_safe db s ent hacyc hallowed
  refine ⟨?_, ?_, ?_⟩
  · rw [hid]
    intro heq
    apply hex
    simp [heq]
  · rw [hid]
    exact hsafe.1
  · rw [hid]
    exact hsafe.2

/-- C3 amended.  Under the default configuration, for a nested page no
eligible link target (hence no inserted link) is the page itself, its
parent, or any entity on its ancestor walk, provided no direct child of the
page sits on that walk (the parent chain is acyclic through the page, which
the upstream validation script enforces); computed children and siblings
are however eligible targets by design of the default policy, which
excludes only the parent and ancestor relations. -/
theorem claim_C3_amended (db : Database) (s : Subcategory)
    (syn : SynonymsMap)
    (hacyc : ∀ c ∈ db.subcategories, c.parentCategoryId = s.id →
      (getAllAncestors db s).contains c.id = false) :
    ∀ t ∈ getEligibleTargets
        { entity := Entity.sub s, id := s.id, slug := s.slug }
        defaultConfig db syn,
      t.id ≠ s.id ∧ t.id ≠ s.parentCategoryId ∧
      (getAllAncestors db s).contains t.id = false := by
  intro t ht
  unfold getEligibleTargets at ht
  dsimp only at ht
  have hexcl : getExcludedEntityIds
      { entity := Entity.sub s, id := s.id, slug := s.slug } defaultConfig
      db = [s.id] := rfl
  rw [hexcl] at ht
  have hmem := sortByPrioDesc_mem _ t ht
  rcases List.mem_append.mp hmem with hside | hside
  · rcases List.mem_filterMap.mp hside with ⟨e, hemem, hf⟩
    split at hf
    case isTrue => simp at hf
    case isFalse hex =>
    split at hf
    case isTrue => simp at hf
    case isFalse =>
    split at hf
    case isTrue => simp at hf
    case isFalse hrel =>
      exact target_safe_of_created db s syn hacyc (Entity.cat e)
        EntityKind.category t hex hrel hf
  · rcases List.mem_filterMap.mp hside with ⟨e, hemem, hf⟩
    split at hf
    case isTrue => simp at hf
    case isFalse hex =>
    split at hf
    case isTrue => simp at hf
    case isFalse =>
    split at hf
    case isTrue => simp at hf
    case isFalse hrel =>
      exact target_safe_of_created db s syn hacyc (Entity.sub e)
        EntityKind.subcategory t hex hrel hf

/-- C3 witness: the amended exclusion guarantee evaluated on the concrete
store, at the one eligible target of the page. -/
theorem claim_C3_amended_witness :
    ({ id := "child1".toList, url := "/cat/page/child1/".toList,
       title := "Alpha Beta".toList, anchors := ["Alpha Beta".toList],
       relation := RelationType.child, priority := 30 } :
      LinkTarget).id ≠ pageSub.id ∧
    ({ id := "child1".toList, url := "/cat/page/child1/".toList,
       title := "Alpha Beta".toList, anchors := ["Alpha Beta".toList],
       relation := RelationType.child, priority := 30 } :
      LinkTarget).id ≠ pageSub.parentCategoryId ∧
    (getAllAncestors dbC pageSub).contains ("child1".toList) = false :=
  claim_C3_amended dbC pageSub [] (by decide)
    { id := "child1".toList, url := "/cat/page/child1/".toList,
      title := "Alpha Beta".toList, anchors := ["Alpha Beta".toList],
      relation := RelationType.child, priority := 30 }
    (by decide)

/-- C6.  Failing run for the per paragraph cap: with oneLinkPerParagraph
enabled and the first paragraph skipped, the filtered paragraph array is
shifted against the recorded paragraph indices, and the engine commits two
insertions (positions 26 and 47) inside the one and only eligible
paragraph, which spans [18, 69) of the input.  The counter is incremented
under the position of the paragraph in the filtered array
(Array.prototype.findIndex, here 0) but read back under the index field of
the paragraph record (here 1), so the cap never triggers. -/
theorem claim_C6_bug :
    cfgPara.placementPolicy.oneLinkPerParagraph = true ∧
    (filterParagraphs (extractParagraphs htmlPara) cfgPara).map
      (fun p => (p.index, p.startIndex, p.endIndex)) = [(1, 18, 69)] ∧
    (findLinkInsertions htmlPara
        (filterParagraphs (extractParagraphs htmlPara) cfgPara)
        [tPara1, tPara2] 5 cfgPara).map (fun i => i.position) =
      [26, 47] ∧
    ((18 : Int) ≤ 26 ∧ (26 : Int) < 69) ∧
    ((18 : Int) ≤ 47 ∧ (47 : Int) < 69) := by
  decide


/-- C7.  Longest match precedence within a target: for a target carrying
both candidate anchors CRM and CRM for Startups (in either storage order;
here the adversarial order with the short anchor first), whenever the full
phrase occurs in the eligible content (the hypothesis that
findFirstOccurrence succeeds on it), the committed insertion is exactly the
full phrase match: the engine links a 16 character match whose case folded
text is the full phrase, never the bare CRM, because anchors are tried in
descending length order and the first success wins. -/
theorem claim_C7_longest_match (html : Str) (paragraphs : List Paragraph)
    (config : InternalLinkingConfig) (maxLinks : Int)
    (tid turl ttitle : Str) (prio : Int) (rel : RelationType)
    (ins : LinkInsertion) (hmax : 1 ≤ maxLinks)
    (hffo : findFirstOccurrence html paragraphs ("CRM for Startups".toList)
      turl config (fun _ => 0) = some ins) :
    findLinkInsertions html paragraphs
      [{ id := tid, url := turl, title := ttitle,
         anchors := ["CRM".toList, "CRM for Startups".toList],
         relation := rel, priority := prio }] maxLinks config = [ins] ∧
    ins.length = 16 ∧
    caseFold config.anchorPolicy.caseSensitive ins.text =
      caseFold config.anchorPolicy.caseSensitive
        ("CRM for Startups".toList) := by
  have hspec := findFirstOccurrence_spec html ("CRM for Startups".toList)
    turl config (fun _ => 0) paragraphs ins hffo
  refine ⟨?_, by simpa using hspec.2.1, hspec.2.2⟩
  unfold findLinkInsertions
  dsimp only
  simp only [List.map_cons, List.map_nil]
  have hsort : sortByLenDesc ["CRM".toList, "CRM for Startups".toList] =
      ["CRM for Startups".toList, "CRM".toList] := by decide
  rw [hsort]
  simp only [targetLoop, anchorLoop]
  rw [if_neg (by simp; omega)]
  rw [if_neg (by simp; omega)]
  rw [if_neg (by simp)]
  rw [hffo]
  simp only [targetLoop]
  simp

/-- C7 witness: on concrete content containing the phrase, with the target
storing the short anchor first, the engine links the full 16 character
phrase at offset 12 rather than the bare CRM. -/
theorem claim_C7_longest_match_witness :
    findLinkInsertions htmlCrm (extractParagraphs htmlCrm)
      [{ id := "crm-for-startups".toList, url := "/crm/".toList,
         title := "CRM for Startups".toList,
         anchors := ["CRM".toList, "CRM for Startups".toList],
         relation := RelationType.relatedCategoryIds, priority := 100 }] 5
      defaultConfig =
      [{ position := 12, length := 16, href := "/crm/".toList,
         text := "CRM for Startups".toList }] ∧
    ({ position := 12, length := 16, href := "/crm/".toList,
       text := "CRM for Startups".toList } : LinkInsertion).length = 16 ∧
    caseFold defaultConfig.anchorPolicy.caseSensitive
      ({ position := 12, length := 16, href := "/crm/".toList,
         text := "CRM for Startups".toList } : LinkInsertion).text =
    caseFold defaultConfig.anchorPolicy.caseSensitive
      ("CRM for Startups".toList) :=
  claim_C7_longest_match htmlCrm (extractParagraphs htmlCrm) defaultConfig 5
    ("crm-for-startups".toList) ("/crm/".toList)
    ("CRM for Startups".toList) 100 RelationType.relatedCategoryIds
    { position := 12, length := 16, href := "/crm/".toList,
      text := "CRM for Startups".toList }
    (by decide) (by decide)

theorem parseTagName_none_of_head (part : Str)
    (h : ¬part.head? = some '<') : parseTagName part = none := by
  cases part with
  | nil => rfl
  | cons c t =>
    have hc : ¬c = '<' := by
      intro hcc
      exact h (by simp [hcc])
    simp only [parseTagName]
    rw [if_neg hc]

theorem excessOpens_snoc (g : Str) (l : List Str) (p : Str) :
    excessOpens g (l ++ [p]) = excessOpens g l +
      (if isOpenOf g p then 1 else 0) -
      (if isCloseOf g p then 1 else 0) := by
  unfold excessOpens
  rw [List.countP_append, List.countP_append]
  by_cases h1 : isOpenOf g p <;> by_cases h2 : isCloseOf g p <;>
    simp [List.countP_cons, h1, h2] <;> omega

theorem count_int_cons (g a : Str) (l : List Str) :
    (((a :: l).count g : Nat) : Int) =
      ((l.count g : Nat) : Int) + (if g = a then 1 else 0) := by
  rw [List.count_cons]
  by_cases h : g = a
  · subst h
    simp
  · have hb : ¬((a == g) = true) := by
      simp only [beq_iff_eq]
      exact fun hx => h hx.symm
    rw [if_neg hb, if_neg h]
    simp

theorem tnStep_flag (content : Str) (pStart : Nat) (otl : Int) (pIdx : Nat)
    (part : Str) (st : TNState)
    (h : st.insideExcluded = st.tagStack.any isExcludedTag) :
    (tnStep content pStart otl pIdx part st).insideExcluded =
      (tnStep content pStart otl pIdx part st).tagStack.any isExcludedTag
    := by
  unfold tnStep
  by_cases hhead : part.head? = some '<'
  · rw [if_pos hhead]
    cases hpt : parseTagName part with
    | none => exact h
    | some pr =>
      rcases pr with ⟨closing, g⟩
      rfl
  · rw [if_neg hhead]
    split
    · split
      · exact h
      · exact h
    · exact h

theorem tnStep_stack_eq_of_text (content : Str) (pStart : Nat) (otl : Int)
    (pIdx : Nat) (part : Str) (st : TNState)
    (hhead : ¬part.head? = some '<') :
    (tnStep content pStart otl pIdx part st).tagStack = st.tagStack ∧
    (tnStep content pStart otl pIdx part st).insideExcluded =
      st.insideExcluded := by
  unfold tnStep
  rw [if_neg hhead]
  split
  · split
    · exact ⟨rfl, rfl⟩
    · exact ⟨rfl, rfl⟩
  · exact ⟨rfl, rfl⟩

theorem tnStep_stack_count (content : Str) (pStart : Nat) (otl : Int)
    (pIdx : Nat) (part : Str) (st : TNState) (processed : List Str)
    (hc : ∀ g : Str, excessOpens g processed ≤ (st.tagStack.count g : Int)) :
    ∀ g : Str, excessOpens g (processed ++ [part]) ≤
      ((tnStep content pStart otl pIdx part st).tagStack.count g : Int) := by
  intro g
  rw [excessOpens_snoc]
  have hcg := hc g
  by_cases hhead : part.head? = some '<'
  · cases hpt : parseTagName part with
    | none =>
      have hstk : (tnStep content pStart otl pIdx part st).tagStack =
          st.tagStack := by
        simp [tnStep, hhead, hpt]
      have ho : isOpenOf g part = false := by simp [isOpenOf, hpt]
      have hcl : isCloseOf g part = false := by simp [isCloseOf, hpt]
      rw [ho, hcl, hstk]
      simp only [Bool.false_eq_true, if_neg, not_false_eq_true]
      omega
    | some pr =>
      rcases pr with ⟨closing, g0⟩
      cases closing with
      | true =>
        have ho : isOpenOf g part = false := by simp [isOpenOf, hpt]
        have hstk : (tnStep content pStart otl pIdx part st).tagStack =
            (if st.tagStack.head? = some g0 then st.tagStack.tail
             else st.tagStack) := by
          simp [tnStep, hhead, hpt]
        rw [ho, hstk]
        by_cases hgg : g = g0
        · subst hgg
          have hcl : isCloseOf g part = true := by simp [isCloseOf, hpt]
          rw [hcl]
          by_cases hpop : st.tagStack.head? = some g
          · rw [if_pos hpop]
            cases hs : st.tagStack with
            | nil => rw [hs] at hpop; simp at hpop
            | cons a tl =>
              have ha : a = g := by rw [hs] at hpop; simpa using hpop
              subst ha
              rw [hs, count_int_cons, if_pos rfl] at hcg
              simp only [List.tail_cons, Bool.false_eq_true,
                if_pos, if_neg, not_false_eq_true]
              omega
          · rw [if_neg hpop]
            simp only [Bool.false_eq_true, if_pos, if_neg,
              not_false_eq_true]
            omega
        · have hcl : isCloseOf g part = false := by
            simp only [isCloseOf, hpt, Option.some.injEq, Prod.mk.injEq,
              true_and, decide_eq_false_iff_not]
            exact fun hx => hgg hx.symm
          rw [hcl]
          simp only [Bool.false_eq_true, if_neg, not_false_eq_true]
          by_cases hpop : st.tagStack.head? = some g0
          · rw [if_pos hpop]
            cases hs : st.tagStack with
            | nil => rw [hs] at hpop; simp at hpop
            | cons a tl =>
              have ha : a = g0 := by rw [hs] at hpop; simpa using hpop
              subst ha
              rw [hs, count_int_cons, if_neg hgg] at hcg
              simp only [List.tail_cons]
              omega
          · rw [if_neg hpop]
            omega
      | false =>
        have hcl : isCloseOf g part = false := by simp [isCloseOf, hpt]
        rw [hcl]
        by_cases hsc : endsSelfClose part = true
        · have hstk : (tnStep content pStart otl pIdx part st).tagStack =
              st.tagStack := by
            simp [tnStep, hhead, hpt, hsc]
          have ho : isOpenOf g part = false := by
            simp [isOpenOf, hpt, hsc]
          rw [ho, hstk]
          simp only [Bool.false_eq_true, if_neg, not_false_eq_true]
          omega
        · have hsc' : endsSelfClose part = false := by simpa using hsc
          have hstk : (tnStep content pStart otl pIdx part st).tagStack =
              g0 :: st.tagStack := by
            simp [tnStep, hhead, hpt, hsc']
          rw [hstk, count_int_cons]
          by_cases hgg : g = g0
          · have ho : isOpenOf g part = true := by
              simp [isOpenOf, hpt, hsc', hgg]
            rw [ho, if_pos hgg]
            simp only [Bool.false_eq_true, if_pos, if_neg,
              not_false_eq_true]
            omega
          · have ho : isOpenOf g part = false := by
              simp only [isOpenOf, hpt, Option.some.injEq, Prod.mk.injEq,
                true_and, hsc', and_true, decide_eq_false_iff_not]
              exact fun hx => hgg hx.symm
            rw [ho, if_neg hgg]
            simp only [Bool.false_eq_true, if_neg, not_false_eq_true]
            omega
  · have hpt := parseTagName_none_of_head part hhead
    have ho : isOpenOf g part = false := by simp [isOpenOf, hpt]
    have hcl : isCloseOf g part = false := by simp [isCloseOf, hpt]
    have hstk := (tnStep_stack_eq_of_text content pStart otl pIdx part st
      hhead).1
    rw [ho, hcl, hstk]
    simp only [Bool.false_eq_true, if_neg, not_false_eq_true]
    omega

theorem tnStep_nodes (content : Str) (pStart : Nat) (otl : Int)
    (pIdx : Nat) (part : Str) (st : TNState) :
    ∀ n ∈ (tnStep content pStart otl pIdx part st).nodes,
      n ∈ st.nodes ∨ (n.text = part ∧ st.insideExcluded = false) := by
  intro n hn
  unfold tnStep at hn
  by_cases hhead : part.head? = some '<'
  · rw [if_pos hhead] at hn
    cases hpt : parseTagName part with
    | none => rw [hpt] at hn; exact Or.inl hn
    | some pr =>
      rcases pr with ⟨closing, g⟩
      rw [hpt] at hn
      exact Or.inl hn
  · rw [if_neg hhead] at hn
    split at hn
    · next hcond =>
      split at hn
      · rcases List.mem_append.mp hn with hold | hnew
        · exact Or.inl hold
        · right
          simp only [List.mem_singleton] at hnew
          subst hnew
          exact ⟨rfl, hcond.2.1⟩
      · exact Or.inl hn
    · exact Or.inl hn

theorem tnLoop_good (content : Str) (pStart : Nat) (otl : Int) (pIdx : Nat)
    (parts : List Str) :
    ∀ (rem processed : List Str) (st : TNState),
      parts = processed ++ rem →
      st.insideExcluded = st.tagStack.any isExcludedTag →
      (∀ g : Str, excessOpens g processed ≤ (st.tagStack.count g : Int)) →
      (∀ n ∈ st.nodes, ∃ k, k < parts.length ∧ parts[k]? = some n.text ∧
        ∀ g ∈ EXCLUDED_TAGS, excessOpens g (parts.take k) ≤ 0) →
      ∀ n ∈ (tnLoop content pStart otl pIdx rem st).nodes,
        ∃ k, k < parts.length ∧ parts[k]? = some n.text ∧
          ∀ g ∈ EXCLUDED_TAGS, excessOpens g (parts.take k) ≤ 0 := by
  intro rem
  induction rem with
  | nil =>
    intro processed st _ _ _ hnodes n hn
    exact hnodes n hn
  | cons part rest ih =>
    intro processed st hparts hflag hcount hnodes n hn
    simp only [tnLoop] at hn
    refine ih (processed ++ [part]) _ (by rw [hparts]; simp) ?_ ?_ ?_ n hn
    · exact tnStep_flag content pStart otl pIdx part st hflag
    · exact tnStep_stack_count content pStart otl pIdx part st processed
        hcount
    · intro m hm
      rcases tnStep_nodes content pStart otl pIdx part st m hm with hold |
        ⟨htext, hinside⟩
      · exact hnodes m hold
      · refine ⟨processed.length, ?_, ?_, ?_⟩
        · rw [hparts, List.length_append, List.length_cons]
          omega
        · rw [hparts, htext]
          rw [List.getElem?_append_right (le_refl processed.length)]
          simp
        · intro g hg
          rw [hparts, List.take_left]
          have hany : st.tagStack.any isExcludedTag = false := by
            rw [← hflag, hinside]
          have hnotmem : g ∉ st.tagStack := by
            intro hmem
            have hex : isExcludedTag g = true := by
              unfold isExcludedTag
              exact (containsStr_iff EXCLUDED_TAGS g).mpr hg
            have htrue := List.any_eq_true.mpr ⟨g, hmem, hex⟩
            rw [hany] at htrue
            exact Bool.false_ne_true htrue
          have hzero : st.tagStack.count g = 0 :=
            List.count_eq_zero.mpr hnotmem
          have := hcount g
          rw [hzero] at this
          simpa using this

/-- C4 counterexample.  The segmenter looks only at the markup inside each
paragraph, so a paragraph wrapped in an excluded element is not protected:
on input consisting of a paragraph nested inside a navigation element, the
segmenter returns the text region spanning [8, 23), which lies strictly
inside the nav element (whose content spans [5, 27) of the input),
refuting the claim that no returned region lies inside an excluded
element. -/
theorem claim_C4_counterexample :
    htmlNav = ("<nav>").toList ++ ("<p>Some words here</p>").toList ++
      ("</nav>").toList ∧
    (extractParagraphs htmlNav).map (fun p => p.textNodes.map
      (fun tn => (tn.text, tn.startIndex, tn.endIndex))) =
      [[("Some words here".toList, 8, 23)]] ∧
    ((5 : Int) ≤ 8 ∧ (23 : Int) ≤ 27) := by
  decide

/-- C4 amended.  Within one paragraph the exclusion discipline is sound:
every text node returned by extractTextNodesFromParagraph corresponds to a
part of the tag split of the paragraph content such that, for every
excluded tag, the parts before it contain no unmatched opening occurrence
(openings never exceed closings), so text inside an excluded element opened
within the paragraph is never returned.  The protection does not extend to
excluded elements enclosing the paragraph from outside (see the
counterexample). -/
theorem claim_C4_amended (paragraphHtml : Str) (pStart pIdx : Nat) :
    ∀ n ∈ extractTextNodesFromParagraph paragraphHtml pStart pIdx,
      ∃ k,
        k < (splitTags (stripClosePEnd (stripOpenP paragraphHtml))).length ∧
        (splitTags (stripClosePEnd (stripOpenP paragraphHtml)))[k]? =
          some n.text ∧
        ∀ g ∈ EXCLUDED_TAGS,
          excessOpens g
            ((splitTags (stripClosePEnd (stripOpenP paragraphHtml))).take k)
            ≤ 0 := by
  intro n hn
  unfold extractTextNodesFromParagraph at hn
  dsimp only at hn
  refine tnLoop_good _ pStart _ pIdx _ _ [] _ (by simp) rfl ?_ ?_ n hn
  · intro g
    simp [excessOpens]
  · intro m hm
    simp at hm

/-- C4 witness: inside the nav wrapped paragraph, the single returned node
is certified by the amended theorem to sit outside every excluded element
opened within the paragraph itself. -/
theorem claim_C4_amended_witness :
    ∃ k,
      k < (splitTags (stripClosePEnd
        (stripOpenP (("<p>Some words here</p>").toList)))).length ∧
      (splitTags (stripClosePEnd
        (stripOpenP (("<p>Some words here</p>").toList))))[k]? =
        some (("Some words here").toList) ∧
      ∀ g ∈ EXCLUDED_TAGS,
        excessOpens g ((splitTags (stripClosePEnd
          (stripOpenP (("<p>Some words here</p>").toList)))).take k) ≤ 0 :=
  claim_C4_amended (("<p>Some words here</p>").toList) 5 0
    { text := ("Some words here").toList, startIndex := 8, endIndex := 23,
      paragraphIndex := 0 }
    (by decide)

theorem strIndexOfGo_spec (hay pat : Str) :
    ∀ fuel i j, strIndexOfGo hay pat i fuel = some j →
      j + pat.length ≤ hay.length ∧
      (hay.drop j).take pat.length = pat := by
  intro fuel
  induction fuel with
  | zero => intro i j h; simp [strIndexOfGo] at h
  | succ m ih =>
    intro i j h
    unfold strIndexOfGo at h
    split at h
    · next hcond =>
      simp only [Option.some.injEq] at h
      subst h
      exact hcond
    · split at h
      · simp at h
      · exact ih (i + 1) j h

theorem strIndexOf_spec (hay pat : Str) (start j : Nat)
    (h : strIndexOf hay pat start = some j) :
    j + pat.length ≤ hay.length ∧ (hay.drop j).take pat.length = pat :=
  strIndexOfGo_spec hay pat (hay.length + 1 - start) start j h

theorem tnStep_nodes_occ (content : Str) (pStart : Nat) (otl : Int)
    (pIdx : Nat) (part : Str) (st : TNState) :
    ∀ n ∈ (tnStep content pStart otl pIdx part st).nodes,
      n ∈ st.nodes ∨
      ∃ idx, strIndexOf content part st.currentPos = some idx ∧
        n = { text := part, startIndex := (pStart : Int) + otl + idx,
              endIndex := (pStart : Int) + otl + idx + part.length,
              paragraphIndex := pIdx } := by
  intro n hn
  unfold tnStep at hn
  by_cases hhead : part.head? = some '<'
  · rw [if_pos hhead] at hn
    cases hpt : parseTagName part with
    | none => rw [hpt] at hn; exact Or.inl hn
    | some pr =>
      rcases pr with ⟨closing, g⟩
      rw [hpt] at hn
      exact Or.inl hn
  · rw [if_neg hhead] at hn
    split at hn
    · cases hidx : strIndexOf content part st.currentPos with
      | none => rw [hidx] at hn; exact Or.inl hn
      | some idx =>
        rw [hidx] at hn
        rcases List.mem_append.mp hn with hold | hnew
        · exact Or.inl hold
        · right
          simp only [List.mem_singleton] at hnew
          exact ⟨idx, rfl, hnew⟩
    · exact Or.inl hn

theorem tnLoop_occ (content : Str) (pStart : Nat) (otl : Int) (pIdx : Nat) :
    ∀ (rem : List Str) (st : TNState),
      (∀ n ∈ st.nodes, ∃ k : Nat,
        n.startIndex = (pStart : Int) + otl + (k : Int) ∧
        n.endIndex = n.startIndex + (n.text.length : Int) ∧
        k + n.text.length ≤ content.length ∧
        (content.drop k).take n.text.length = n.text) →
      ∀ n ∈ (tnLoop content pStart otl pIdx rem st).nodes, ∃ k : Nat,
        n.startIndex = (pStart : Int) + otl + (k : Int) ∧
        n.endIndex = n.startIndex + (n.text.length : Int) ∧
        k + n.text.length ≤ content.length ∧
        (content.drop k).take n.text.length = n.text := by
  intro rem
  induction rem with
  | nil => intro st hnodes n hn; exact hnodes n hn
  | cons part rest ih =>
    intro st hnodes n hn
    simp only [tnLoop] at hn
    refine ih _ ?_ n hn
    intro m hm
    rcases tnStep_nodes_occ content pStart otl pIdx part st m hm with hold |
      ⟨idx, hidx, hrec⟩
    · exact hnodes m hold
    · have hspec := strIndexOf_spec content part st.currentPos idx hidx
      refine ⟨idx, ?_, ?_, ?_, ?_⟩
      · rw [hrec]
      · rw [hrec]
      · rw [hrec]
        exact hspec.1
      · rw [hrec]
        exact hspec.2

theorem findGtFromGo_spec (s : Str) :
    ∀ fuel i j, findGtFromGo s i fuel = some j →
      i ≤ j ∧ s.get? j = some '>' := by
  intro fuel
  induction fuel with
  | zero => intro i j h; simp [findGtFromGo] at h
  | succ m ih =>
    intro i j h
    unfold findGtFromGo at h
    split at h
    · next hcond =>
      simp only [Option.some.injEq] at h
      subst h
      exact ⟨le_refl i, hcond⟩
    · split at h
      · simp at h
      · have := ih (i + 1) j h
        exact ⟨by omega, this.2⟩

theorem matchOpenPTag_spec (ci : Bool) (s : Str) (i oe : Nat)
    (h : matchOpenPTag ci s i = some oe) : i + 3 ≤ oe ∧ oe ≤ s.length := by
  unfold matchOpenPTag at h
  split at h
  · split at h
    · split at h
      · rename_i heq2
        simp only [Option.some.injEq] at h
        subst h
        obtain ⟨hlt2, _⟩ := List.get?_eq_some.mp heq2
        omega
      · rename_i c2 heq2 hne2
        split at h
        · split at h
          · rename_i j heqj
            simp only [Option.some.injEq] at h
            subst h
            have hspec := findGtFromGo_spec s (s.length + 1) (i + 3) j heqj
            obtain ⟨hjl, _⟩ := List.get?_eq_some.mp hspec.2
            omega
          · simp at h
        · simp at h
      · simp at h
    · simp at h
  · simp at h

theorem findClosePFromGo_spec (s : Str) :
    ∀ fuel i j, findClosePFromGo s i fuel = some j →
      i ≤ j ∧ j + 4 ≤ s.length := by
  intro fuel
  induction fuel with
  | zero => intro i j h; simp [findClosePFromGo] at h
  | succ m ih =>
    intro i j h
    unfold findClosePFromGo at h
    split at h
    · next hcond =>
      simp only [Option.some.injEq] at h
      subst h
      obtain ⟨hlt, _⟩ := List.get?_eq_some.mp hcond.2.2.2
      omega
    · split at h
      · simp at h
      · have := ih (i + 1) j h
        exact ⟨by omega, this.2⟩

theorem pScanFrom_spec (html : Str) :
    ∀ fuel pos i e, pScanFrom html pos fuel = some (i, e) →
      i ≤ e ∧ e ≤ html.length := by
  intro fuel
  induction fuel with
  | zero => intro pos i e h; simp [pScanFrom] at h
  | succ m ih =>
    intro pos i e h
    unfold pScanFrom at h
    split at h
    · rename_i oe heq
      split at h
      · rename_i j heqj
        simp only [Option.some.injEq, Prod.mk.injEq] at h
        obtain ⟨hi, he⟩ := h
        have hopen := matchOpenPTag_spec true html pos oe heq
        have hclose := findClosePFromGo_spec html (html.length + 1) oe j
          heqj
        omega
      · simp at h
    · split at h
      · simp at h
      · exact ih (pos + 1) i e h

theorem epScan_mem (html : Str) :
    ∀ fuel pos pIdx p, p ∈ epScan html pos pIdx fuel →
      p.fullHtml = (html.drop p.startIndex).take (p.endIndex - p.startIndex)
      ∧ p.textNodes =
        extractTextNodesFromParagraph p.fullHtml p.startIndex p.index ∧
      p.startIndex ≤ p.endIndex ∧ p.endIndex ≤ html.length := by
  intro fuel
  induction fuel with
  | zero => intro pos pIdx p h; simp [epScan] at h
  | succ m ih =>
    intro pos pIdx p h
    unfold epScan at h
    split at h
    · simp at h
    · rename_i i e heq
      rcases List.mem_cons.mp h with hp | hp
      · subst hp
        have hspec := pScanFrom_spec html (html.length + 1) pos i e heq
        exact ⟨rfl, rfl, hspec.1, hspec.2⟩
      · exact ih e (pIdx + 1) p hp

theorem extractParagraphs_mem (html : Str) (p : Paragraph)
    (hp : p ∈ extractParagraphs html) :
    p.fullHtml = (html.drop p.startIndex).take (p.endIndex - p.startIndex) ∧
    p.textNodes =
      extractTextNodesFromParagraph p.fullHtml p.startIndex p.index ∧
    p.startIndex ≤ p.endIndex ∧ p.endIndex ≤ html.length :=
  epScan_mem html (html.length + 1) 0 0 p hp

theorem stripClosePEnd_append (l : List Char) :
    stripClosePEnd (l ++ ("</p>").toList) = l := by
  unfold stripClosePEnd
  have hlen : (l ++ ("</p>").toList).length = l.length + 4 := by
    simp
  rw [if_pos]
  · rw [hlen]
    have h4 : l.length + 4 - 4 = l.length := by omega
    rw [h4, List.take_left]
  · constructor
    · omega
    · rw [hlen]
      have h4 : l.length + 4 - 4 = l.length := by omega
      rw [h4, List.drop_left]

theorem take_drop_middle_str (x y z : Str) :
    ((x ++ (y ++ z)).drop x.length).take y.length = y := by
  rw [List.drop_left, List.take_left]

theorem jsSlice_nat (s : Str) (a b : Nat) (hab : a ≤ b)
    (hb : b ≤ s.length) :
    jsSlice s (a : Int) (b : Int) = (s.drop a).take (b - a) := by
  unfold jsSlice
  dsimp only
  have ha0 : ¬((a : Int) < 0) := by omega
  have hb0 : ¬((b : Int) < 0) := by omega
  rw [if_neg ha0, if_neg hb0]
  have hmina : min (a : Int) (s.length : Int) = (a : Int) := by
    apply min_eq_left
    omega
  have hminb : min (b : Int) (s.length : Int) = (b : Int) := by
    apply min_eq_left
    omega
  rw [hmina, hminb]
  by_cases hlt : (a : Int) < (b : Int)
  · rw [if_pos hlt]
    have e1 : ((a : Int)).toNat = a := by omega
    have e2 : ((b : Int) - (a : Int)).toNat = b - a := by omega
    rw [e1, e2]
  · rw [if_neg hlt]
    have hba : b - a = 0 := by omega
    rw [hba]
    simp

/-- C5 amended.  For every paragraph found by extractParagraphs whose
delimiters are lower case (the anchored strip patterns of
extractTextNodesFromParagraph are case sensitive, unlike the case
insensitive paragraph scanner), every returned text node carries an
absolute, nonnegative offset into the original full html string, and the
slice of the original html between startIndex and endIndex is exactly the
node text.  For paragraphs with upper case delimiters the offsets are
shifted and can be negative (see the counterexample). -/
theorem claim_C5_amended (html : Str) (p : Paragraph)
    (hp : p ∈ extractParagraphs html) (oe : Nat)
    (hopen : matchOpenPTag false p.fullHtml 0 = some oe)
    (mid : Str) (hmid : p.fullHtml.drop oe = mid ++ ("</p>").toList) :
    ∀ n ∈ p.textNodes,
      0 ≤ n.startIndex ∧ jsSlice html n.startIndex n.endIndex = n.text := by
  obtain ⟨hfull, hnodes, hse, hel⟩ := extractParagraphs_mem html p hp
  have hoe := matchOpenPTag_spec false p.fullHtml 0 oe hopen
  have hstrip : stripOpenP p.fullHtml = p.fullHtml.drop oe := by
    unfold stripOpenP
    rw [hopen]
  have hcontent : stripClosePEnd (stripOpenP p.fullHtml) = mid := by
    rw [hstrip, hmid, stripClosePEnd_append]
  have hdecomp : p.fullHtml =
      p.fullHtml.take oe ++ (mid ++ ("</p>").toList) := by
    rw [← hmid, List.take_append_drop]
  have htkoe : (p.fullHtml.take oe).length = oe := by
    rw [List.length_take]
    omega
  have hclen : (("</p>").toList).length = 4 := rfl
  have hlenfull : p.fullHtml.length = oe + mid.length + 4 := by
    have hc := congrArg List.length hdecomp
    rw [List.length_append, List.length_append, htkoe, hclen] at hc
    omega
  have hlen2 : p.fullHtml.length = p.endIndex - p.startIndex := by
    rw [hfull, List.length_take, List.length_drop]
    omega
  have hotl : ((p.fullHtml.length : Int) -
      ((stripClosePEnd (stripOpenP p.fullHtml)).length : Int) - 4) =
      (oe : Nat) := by
    rw [hcontent, hlenfull]
    push_cast
    ring
  have hsplit : html =
      html.take p.startIndex ++ (p.fullHtml ++ html.drop p.endIndex) := by
    have h1 : html = html.take p.startIndex ++ html.drop p.startIndex :=
      (List.take_append_drop _ _).symm
    have h3 : (html.drop p.startIndex).drop (p.endIndex - p.startIndex) =
        html.drop p.endIndex := by
      rw [List.drop_drop]
      congr 1
      omega
    have h2 : html.drop p.startIndex = p.fullHtml ++ html.drop p.endIndex
        := by
      rw [hfull, ← h3, List.take_append_drop]
    rw [h2] at h1
    exact h1
  intro n hn
  rw [hnodes] at hn
  unfold extractTextNodesFromParagraph at hn
  dsimp only at hn
  obtain ⟨k, hstart, hend, hkb, hkocc⟩ :=
    tnLoop_occ _ _ _ _ _ _ (fun m hm => by simp at hm) n hn
  rw [hcontent] at hkb hkocc
  rw [hotl] at hstart
  have hsi : n.startIndex = ((p.startIndex + oe + k : Nat) : Int) := by
    rw [hstart]
    push_cast
    ring
  have hspe : p.startIndex + p.fullHtml.length = p.endIndex := by omega
  have hlenb : p.startIndex + oe + k + n.text.length ≤ html.length := by
    omega
  have hei : n.endIndex =
      ((p.startIndex + oe + k + n.text.length : Nat) : Int) := by
    rw [hend, hsi]
    push_cast
    ring
  constructor
  · rw [hsi]
    omega
  · rw [hsi, hei, jsSlice_nat html _ _ (by omega) hlenb]
    have hsub : p.startIndex + oe + k + n.text.length -
        (p.startIndex + oe + k) = n.text.length := by omega
    rw [hsub]
    have hm1 : mid =
        mid.take k ++ (n.text ++ (mid.drop k).drop n.text.length) := by
      have h5 : n.text ++ (mid.drop k).drop n.text.length = mid.drop k := by
        conv_rhs => rw [← List.take_append_drop n.text.length (mid.drop k)]
        rw [hkocc]
      rw [h5, List.take_append_drop]
    have htkk : (mid.take k).length = k := by
      rw [List.length_take]
      omega
    have hts : (html.take p.startIndex).length = p.startIndex := by
      rw [List.length_take]
      omega
    have hbig : html =
        (html.take p.startIndex ++ p.fullHtml.take oe ++ mid.take k) ++
        (n.text ++ ((mid.drop k).drop n.text.length ++
          ((("</p>").toList) ++ html.drop p.endIndex))) := by
      conv_lhs => rw [hsplit]
      conv_lhs => rw [hdecomp]
      conv_lhs => rw [hm1]
      simp [List.append_assoc]
    have hlenpre : (html.take p.startIndex ++ p.fullHtml.take oe ++
        mid.take k).length = p.startIndex + oe + k := by
      rw [List.length_append, List.length_append, hts, htkoe, htkk]
    conv_lhs => rw [hbig, ← hlenpre]
    exact take_drop_middle_str _ _ _

/-- C5 counterexample.  The paragraph scanner matches tags case
insensitively, but the offset computation strips only lower case tags: on
an upper case paragraph the segmenter returns the node (Hello world) with
startIndex -1 (the unstripped opening tag makes the computed tag length
negative), and slicing the original html at [-1, 10) yields the empty
string rather than the node text, refuting exactness of the offsets. -/
theorem claim_C5_counterexample :
    (extractParagraphs htmlUpper).map (fun p => p.textNodes.map
      (fun n => (n.text, n.startIndex, n.endIndex))) =
      [[(("Hello world").toList, -1, 10)]] ∧
    jsSlice htmlUpper (-1) 10 = [] ∧
    ¬jsSlice htmlUpper (-1) 10 = ("Hello world").toList := by
  decide

/-- C5 witness: on a lower case paragraph the amended theorem certifies
that the single returned node has a nonnegative absolute offset and that
the html slice at its offsets reproduces its text. -/
theorem claim_C5_amended_witness :
    0 ≤ ({ text := ("Hi there").toList, startIndex := 3, endIndex := 11,
           paragraphIndex := 0 } : TextNode).startIndex ∧
    jsSlice (("<p>Hi there</p>").toList)
        ({ text := ("Hi there").toList, startIndex := 3, endIndex := 11,
           paragraphIndex := 0 } : TextNode).startIndex
        ({ text := ("Hi there").toList, startIndex := 3, endIndex := 11,
           paragraphIndex := 0 } : TextNode).endIndex =
      ({ text := ("Hi there").toList, startIndex := 3, endIndex := 11,
         paragraphIndex := 0 } : TextNode).text :=
  claim_C5_amended (("<p>Hi there</p>").toList)
    ⟨("<p>Hi there</p>").toList,
      [⟨("Hi there").toList, 3, 11, 0⟩], 0, 15, 0⟩
    (by decide) 3 (by decide) (("Hi there").toList) (by decide)
    { text := ("Hi there").toList, startIndex := 3, endIndex := 11,
      paragraphIndex := 0 }
    (by decide)
